import Mathlib

/-!
Verification of the nssjson JSON codec (src/nssjson/__init__.py and the
decoder/encoder/scanner core it re-exports).

Python text is modelled as a list of Unicode codepoints (`PyStr`), which,
like a CPython string, can hold lone surrogate code units.  Native doubles
and their shortest round-trippable decimal form are modelled as exact
decimals `m * 10 ^ e` held in canonical form (the "within representable
precision" reading of the spec).  The top-level functions `dump`, `dumps`
and `loads` are translated from src/nssjson/__init__.py; the codec core
(decoder.py, encoder.py, scanner.py) is not part of src/ and is modelled
from the spec, as marked on each definition.
-/

set_option maxHeartbeats 1000000
set_option linter.unnecessarySeqFocus false

namespace Nss

/-- Python text: a list of Unicode codepoints, lone surrogates allowed. -/
abbrev PyStr := List Nat

/-- Codepoints of a Lean string literal, used to state concrete examples. -/
def str2cp (s : String) : PyStr := s.data.map Char.toNat

/-- Right-fold concatenation of the images of a list, used throughout in
place of a library flat-map to keep unfolding predictable. -/
def concatMap (f : α → List β) : List α → List β
  | [] => []
  | a :: as => f a ++ concatMap f as

/-- Concatenation of a list of chunks. -/
def concatL (l : List (List α)) : List α := concatMap id l

/-- Modelled from the spec: the JSON value variants produced by the missing
decoder core and consumed by the encoder core.  `float` is a canonical exact
decimal standing for a native double within representable precision; `dec`
is the result of `parse_float=Decimal` and keeps its raw decimal exponent. -/
inductive JValue where
  | null
  | boolean (b : Bool)
  | int (i : Int)
  | float (m e : Int)
  | dec (m e : Int)
  | str (s : PyStr)
  | arr (elems : List JValue)
  | obj (members : List (PyStr × JValue))

mutual

/-- A structural size of a value, used as encoder fuel. -/
def jsize : JValue → Nat
  | .arr vs => 1 + jsizeL vs
  | .obj ms => 1 + jsizeM ms
  | _ => 1

/-- Structural size of an element list. -/
def jsizeL : List JValue → Nat
  | [] => 1
  | v :: t => 1 + jsize v + jsizeL t

/-- Structural size of a member list. -/
def jsizeM : List (PyStr × JValue) → Nat
  | [] => 1
  | p :: t => 1 + jsize p.2 + jsizeM t

end

/-! ### Decimal digits and numbers -/

/-- Decimal digit codepoints of `n`, most significant first, in front of
`acc`; the fuel argument makes the recursion structural and is always given
as at least the digit count. -/
def natDigsF : Nat → Nat → List Nat → List Nat
  | 0, _, acc => acc
  | f + 1, n, acc =>
      if n < 10 then (48 + n % 10) :: acc
      else natDigsF f (n / 10) ((48 + n % 10) :: acc)

/-- Decimal digit codepoints of a natural number. -/
def natDigs (n : Nat) : List Nat := natDigsF (n + 1) n []

/-- Decimal rendering of an integer: optional minus sign, then digits. -/
def intDec (i : Int) : PyStr := (if i < 0 then [45] else []) ++ natDigs i.natAbs

/-- Modelled from the spec: the shortest round-trippable decimal rendering
of a float, written in exact scientific form mantissa `e` exponent. -/
def floatRepr (m e : Int) : PyStr := intDec m ++ 101 :: intDec e

/-- Strip factors of ten from `m` into `e`; fuel-driven so that it stays
structural, with `m.natAbs` always an adequate fuel. -/
def stripZeros : Nat → Int → Int → Int × Int
  | 0, m, e => (m, e)
  | f + 1, m, e =>
      if m % 10 = 0 && !(m == 0) then stripZeros f (m / 10) (e + 1) else (m, e)

/-- Canonical form of the exact decimal `m * 10 ^ e`: zero is `(0, 0)` and a
nonzero mantissa is not divisible by ten. -/
def canonDec (m e : Int) : Int × Int :=
  if m = 0 then (0, 0) else stripZeros m.natAbs m e

/-- A mantissa/exponent pair already in canonical form. -/
def canonF (m e : Int) : Bool :=
  if m = 0 then e == 0 else !(m % 10 == 0)

/-! ### String escaping (encoder side) -/

/-- Lowercase hexadecimal digit codepoint for `n < 16`. -/
def hexDig (n : Nat) : Nat := if n < 10 then 48 + n else 87 + n

/-- The six-character escape for a code unit below `0x10000`. -/
def esc4 (x : Nat) : List Nat :=
  [92, 117, hexDig (x / 4096 % 16), hexDig (x / 256 % 16),
   hexDig (x / 16 % 16), hexDig (x % 16)]

/-- Modelled from the spec: emission of one codepoint of a string being
encoded.  Quote, backslash and control characters are always escaped; with
`ascii` set every codepoint outside printable ASCII becomes a backslash-u
escape, codepoints beyond the BMP splitting into a surrogate pair. -/
def escCp (ascii : Bool) (c : Nat) : List Nat :=
  if c = 34 then [92, 34]
  else if c = 92 then [92, 92]
  else if c = 8 then [92, 98]
  else if c = 9 then [92, 116]
  else if c = 10 then [92, 110]
  else if c = 12 then [92, 102]
  else if c = 13 then [92, 114]
  else if c < 32 then esc4 c
  else if c ≤ 126 then [c]
  else if ascii then
    if c < 65536 then esc4 c
    else esc4 (55296 + (c - 65536) / 1024) ++ esc4 (56320 + (c - 65536) % 1024)
  else [c]

/-- Modelled from the spec: a string rendered as a quoted JSON string
literal, escaping each codepoint via `escCp`. -/
def encodeBasestring (ascii : Bool) (s : PyStr) : PyStr :=
  34 :: concatMap (escCp ascii) s ++ [34]

/-! ### Encode configuration -/

/-- The `JSONEncoder` construction parameters, translated from the keyword
set that src/nssjson/__init__.py passes when rebuilding the default encoder
(the unknown-type hook is not representable on the closed value type and is
omitted; the spec's default configuration leaves it unset). -/
structure JSONEncoder where
  skipkeys : Bool
  ensure_ascii : Bool
  check_circular : Bool
  allow_nan : Bool
  indent : Option PyStr
  separators : Option (PyStr × PyStr)
  sort_keys : Bool
deriving DecidableEq

/-- The sensible default construction parameters of `JSONEncoder`, as
spelled out at src/nssjson/__init__.py lines 288-295. -/
def SENSIBLE_DEFAULTS : JSONEncoder :=
  ⟨false, true, true, true, none, none, false⟩

/-- Modelled from the spec: the separator written between container items;
when an indent is active and no separators are configured, the trailing
space is trimmed from the item separator. -/
def JSONEncoder.item_separator (cfg : JSONEncoder) : PyStr :=
  match cfg.separators with
  | some s => s.1
  | none => if cfg.indent.isSome then [44] else [44, 32]

/-- Modelled from the spec: the separator written between a key and its
value. -/
def JSONEncoder.key_separator (cfg : JSONEncoder) : PyStr :=
  match cfg.separators with
  | some s => s.2
  | none => [58, 32]

/-- Codepoint-wise lexicographic order on strings, matching Python string
comparison. -/
def lexLe : PyStr → PyStr → Bool
  | [], _ => true
  | _ :: _, [] => false
  | a :: as, b :: bs => a < b || (a == b && lexLe as bs)

/-- Insert a member into a key-sorted member list, keeping it stable. -/
def insertPair (p : PyStr × JValue) :
    List (PyStr × JValue) → List (PyStr × JValue)
  | [] => [p]
  | q :: qs => if lexLe p.1 q.1 then p :: q :: qs else q :: insertPair p qs

/-- Stable insertion sort of object members by key, the model of
`sort_keys=True`. -/
def sortPairs : List (PyStr × JValue) → List (PyStr × JValue)
  | [] => []
  | p :: ps => insertPair p (sortPairs ps)

/-- `n` copies of `s`, concatenated. -/
def repStr : Nat → PyStr → PyStr
  | 0, _ => []
  | n + 1, s => s ++ repStr n s

/-- Modelled from the spec: the newline-plus-indentation run emitted before
an item at nesting level `lvl`, empty when no indent is configured. -/
def nlIndent (cfg : JSONEncoder) (lvl : Nat) : PyStr :=
  match cfg.indent with
  | none => []
  | some ind => 10 :: repStr lvl ind

/-- A unit of pending encoder work: one value, the items of an array, or
the members of an object. -/
inductive EncTask where
  | one (v : JValue)
  | items (vs : List JValue)
  | members (ps : List (PyStr × JValue))

/-- Modelled from the spec: the recursive serializer.  The fuel argument
keeps the recursion structural; `sizeOf` of the root value is always an
adequate fuel.  Members are sorted by key first when `sort_keys` is set,
and containers are laid out with the configured separators and optional
indent. -/
def encGo (cfg : JSONEncoder) : Nat → Nat → EncTask → PyStr
  | 0, _, _ => []
  | f + 1, lvl, .one v =>
      match v with
      | .null => str2cp "null"
      | .boolean true => str2cp "true"
      | .boolean false => str2cp "false"
      | .int i => intDec i
      | .float m e => floatRepr m e
      | .dec m e => floatRepr m e
      | .str s => encodeBasestring cfg.ensure_ascii s
      | .arr [] => [91, 93]
      | .arr vs =>
          91 :: (nlIndent cfg (lvl + 1) ++ encGo cfg f (lvl + 1) (.items vs)
            ++ nlIndent cfg lvl ++ [93])
      | .obj ms =>
          match (if cfg.sort_keys then sortPairs ms else ms) with
          | [] => [123, 125]
          | p :: ps =>
              123 :: (nlIndent cfg (lvl + 1)
                ++ encGo cfg f (lvl + 1) (.members (p :: ps))
                ++ nlIndent cfg lvl ++ [125])
  | f + 1, lvl, .items vs =>
      match vs with
      | [] => []
      | [v] => encGo cfg f lvl (.one v)
      | v :: vs =>
          encGo cfg f lvl (.one v) ++ cfg.item_separator ++ nlIndent cfg lvl
            ++ encGo cfg f lvl (.items vs)
  | f + 1, lvl, .members ps =>
      match ps with
      | [] => []
      | [p] => encodeBasestring cfg.ensure_ascii p.1 ++ cfg.key_separator
            ++ encGo cfg f lvl (.one p.2)
      | p :: ps =>
          encodeBasestring cfg.ensure_ascii p.1 ++ cfg.key_separator
            ++ encGo cfg f lvl (.one p.2) ++ cfg.item_separator
            ++ nlIndent cfg lvl ++ encGo cfg f lvl (.members ps)

/-- Modelled from the spec: the streaming serializer, producing the lazily
yielded chunk sequence.  It mirrors `encGo` chunk for chunk. -/
def iterGo (cfg : JSONEncoder) : Nat → Nat → EncTask → List PyStr
  | 0, _, _ => []
  | f + 1, lvl, .one v =>
      match v with
      | .null => [str2cp "null"]
      | .boolean true => [str2cp "true"]
      | .boolean false => [str2cp "false"]
      | .int i => [intDec i]
      | .float m e => [floatRepr m e]
      | .dec m e => [floatRepr m e]
      | .str s => [encodeBasestring cfg.ensure_ascii s]
      | .arr [] => [[91, 93]]
      | .arr vs =>
          (91 :: nlIndent cfg (lvl + 1)) :: iterGo cfg f (lvl + 1) (.items vs)
            ++ [nlIndent cfg lvl ++ [93]]
      | .obj ms =>
          match (if cfg.sort_keys then sortPairs ms else ms) with
          | [] => [[123, 125]]
          | p :: ps =>
              (123 :: nlIndent cfg (lvl + 1))
                :: iterGo cfg f (lvl + 1) (.members (p :: ps))
                ++ [nlIndent cfg lvl ++ [125]]
  | f + 1, lvl, .items vs =>
      match vs with
      | [] => []
      | [v] => iterGo cfg f lvl (.one v)
      | v :: vs =>
          iterGo cfg f lvl (.one v) ++ [cfg.item_separator ++ nlIndent cfg lvl]
            ++ iterGo cfg f lvl (.items vs)
  | f + 1, lvl, .members ps =>
      match ps with
      | [] => []
      | [p] => (encodeBasestring cfg.ensure_ascii p.1 ++ cfg.key_separator)
            :: iterGo cfg f lvl (.one p.2)
      | p :: ps =>
          (encodeBasestring cfg.ensure_ascii p.1 ++ cfg.key_separator)
            :: iterGo cfg f lvl (.one p.2)
            ++ [cfg.item_separator ++ nlIndent cfg lvl]
            ++ iterGo cfg f lvl (.members ps)

/-- Modelled from the spec: `encodeToString` for a configured encoder. -/
def JSONEncoder.encode (cfg : JSONEncoder) (v : JValue) : PyStr :=
  encGo cfg (jsize v) 0 (.one v)

/-- Modelled from the spec: `encodeToChunks` for a configured encoder. -/
def JSONEncoder.iterencode (cfg : JSONEncoder) (v : JValue) : List PyStr :=
  iterGo cfg (jsize v) 0 (.one v)

/-! ### Decoder: tokens and whitespace -/

/-- JSON insignificant whitespace: space, tab, newline, carriage return. -/
def isWsCp (c : Nat) : Bool := c == 32 || c == 9 || c == 10 || c == 13

/-- Drop leading insignificant whitespace. -/
def skipWsL : PyStr → PyStr
  | c :: t => if isWsCp c then skipWsL t else c :: t
  | [] => []

/-- An ASCII decimal digit codepoint. -/
def digitCp (c : Nat) : Bool := 48 ≤ c && c ≤ 57

/-- Split off the maximal leading run of decimal digits. -/
def digitSpan : PyStr → PyStr × PyStr
  | c :: t =>
      if digitCp c then
        let p := digitSpan t
        (c :: p.1, p.2)
      else ([], c :: t)
  | [] => ([], [])

/-- Numeric value of a run of decimal digit codepoints. -/
def digitsNat (ds : PyStr) : Nat := ds.foldl (fun a c => a * 10 + (c - 48)) 0

/-- The matched pieces of a JSON number literal: sign, integer digits,
fraction digits (empty when no fraction matched) and explicit exponent. -/
structure NumLit where
  neg : Bool
  ip : PyStr
  fp : PyStr
  ex : Option Int

/-- Exponent digits after the `e` marker and optional sign; `orig` is
restored when no digit follows, as with an unmatched regex group. -/
def expDigits (neg : Bool) (t orig : PyStr) : Option Int × PyStr :=
  match digitSpan t with
  | ([], _) => (none, orig)
  | (ds, r2) => (some ((if neg then (-1 : Int) else 1) * (digitsNat ds : Int)), r2)

/-- The optional exponent part of a number literal. -/
def matchExpPart (r : PyStr) : Option Int × PyStr :=
  match r with
  | c :: c2 :: t =>
      if c == 101 || c == 69 then
        if c2 = 43 then expDigits false t r
        else if c2 = 45 then expDigits true t r
        else expDigits false (c2 :: t) r
      else (none, r)
  | c :: [] =>
      if c == 101 || c == 69 then expDigits false [] r else (none, r)
  | [] => (none, [])

/-- The optional fraction part: a dot must be followed by at least one
digit to count, otherwise the dot is left unconsumed. -/
def matchFrac (r : PyStr) : PyStr × PyStr :=
  match r with
  | c :: rr =>
      if c = 46 then
        match digitSpan rr with
        | ([], _) => ([], c :: rr)
        | (ds, r2) => (ds, r2)
      else ([], r)
  | [] => ([], r)

/-- Assemble a number literal from the integer part onward. -/
def buildNum (neg : Bool) (ip : PyStr) (r : PyStr) : NumLit × PyStr :=
  let f := matchFrac r
  let e := matchExpPart f.2
  (⟨neg, ip, f.1, e.1⟩, e.2)

/-- Modelled from the spec: the fixed-pattern number matcher.  The integer
part is a lone `0` or a nonzero-digit-led run, optionally preceded by a
minus sign and followed by fraction and exponent groups. -/
def matchNumber (cs : PyStr) : Option (NumLit × PyStr) :=
  let p : Bool × PyStr :=
    match cs with
    | c :: r => if c = 45 then (true, r) else (false, cs)
    | [] => (false, [])
  match p.2 with
  | c :: r1 =>
      if c = 48 then some (buildNum p.1 [48] r1)
      else if digitCp c then
        let q := digitSpan r1
        some (buildNum p.1 (c :: q.1) q.2)
      else none
  | [] => none

/-- The float constructors a decode configuration can select; `decimalC`
models `decimal.Decimal`. -/
inductive FloatCtor where
  | decimalC
deriving DecidableEq

/-- Sign factor of a matched literal. -/
def intSign (neg : Bool) : Int := if neg then -1 else 1

/-- Modelled from the spec: conversion of a matched number literal.  A
match with only an integer part yields an arbitrary-precision integer; any
match with fraction or exponent runs through the configured float
constructor, the default double being the canonical exact decimal. -/
def numValue (pf : Option FloatCtor) (lit : NumLit) : JValue :=
  if lit.fp.isEmpty && lit.ex.isNone then
    .int (intSign lit.neg * (digitsNat lit.ip : Int))
  else
    let m0 : Int := intSign lit.neg * (digitsNat (lit.ip ++ lit.fp) : Int)
    let e0 : Int := lit.ex.getD 0 - (lit.fp.length : Int)
    match pf with
    | some .decimalC => .dec m0 e0
    | none =>
        let c := canonDec m0 e0
        .float c.1 c.2

/-! ### Decoder: errors and strings -/

/-- An in-flight decode failure: the reason and the length of the input
still unconsumed at the offending character, from which the absolute offset
is recovered at the top level. -/
structure DErr where
  msg : PyStr
  rem : Nat
deriving DecidableEq

/-- Reason text of a value-position failure. -/
def msgExpValue : PyStr := str2cp "Expecting value"

/-- Reason text of a missing property name; the wording is the one recorded
by the tool doctest at src/nssjson/__init__.py line 98. -/
def msgPropName : PyStr := str2cp "Expecting property name"

/-- Reason text of a missing comma between items. -/
def msgCommaDelim : PyStr := str2cp "Expecting " ++ [39, 44, 39] ++ str2cp " delimiter"

/-- Reason text of a missing colon after a property name. -/
def msgColonDelim : PyStr := str2cp "Expecting " ++ [39, 58, 39] ++ str2cp " delimiter"

/-- Reason text of trailing non-whitespace after the outermost value. -/
def msgExtra : PyStr := str2cp "Extra data"

/-- Reason text of an unclosed string literal. -/
def msgUnterm : PyStr := str2cp "Unterminated string"

/-- Reason text of a raw control character inside a strict-mode string. -/
def msgCtrl : PyStr := str2cp "Invalid control character"

/-- Reason text of an unknown backslash escape. -/
def msgBadEsc : PyStr := str2cp "Invalid backslash escape"

/-- Reason text of a malformed backslash-u escape. -/
def msgBadUni : PyStr := str2cp "Invalid backslash-u escape"

/-- Value of a hexadecimal digit codepoint, if it is one. -/
def hexv (c : Nat) : Option Nat :=
  if 48 ≤ c && c ≤ 57 then some (c - 48)
  else if 97 ≤ c && c ≤ 102 then some (c - 87)
  else if 65 ≤ c && c ≤ 70 then some (c - 55)
  else none

/-- Value of four hexadecimal digit codepoints. -/
def hex4 (a b c d : Nat) : Option Nat :=
  match hexv a, hexv b, hexv c, hexv d with
  | some x, some y, some z, some w => some (((x * 16 + y) * 16 + z) * 16 + w)
  | _, _, _, _ => none

/-- Decoded value of a single-letter backslash escape. -/
def escDecode (e : Nat) : Option Nat :=
  if e == 34 then some 34
  else if e == 92 then some 92
  else if e == 47 then some 47
  else if e == 98 then some 8
  else if e == 102 then some 12
  else if e == 110 then some 10
  else if e == 114 then some 13
  else if e == 116 then some 9
  else none

/-- The surrogate-pair lookahead: when the remaining input starts with a
backslash-u escape of a low surrogate, its value and the rest of the
input. -/
def pairLow : PyStr → Option (Nat × PyStr)
  | a :: b :: x :: y :: z :: w :: r3 =>
      if a = 92 then
        if b = 117 then
          match hex4 x y z w with
          | some u2 => if 56320 ≤ u2 && u2 < 57344 then some (u2, r3) else none
          | none => none
        else none
      else none
  | _ => none

/-- Modelled from the spec: the string unescaper, entered just after the
opening quote with `acc` holding the codepoints read so far in reverse.  A
high surrogate escape immediately followed by a low surrogate escape
combines into one codepoint; an unpaired surrogate is kept as is.  Raw
control characters are rejected in strict mode.  The fuel argument keeps
the recursion structural; the remaining input length is always adequate. -/
def py_scanstring (strict : Bool) : Nat → PyStr → PyStr → Except DErr (PyStr × PyStr)
  | 0, _, cs => .error ⟨msgUnterm, cs.length⟩
  | _ + 1, _, [] => .error ⟨msgUnterm, 0⟩
  | f + 1, acc, c :: r =>
      if c = 34 then .ok (acc.reverse, r)
      else if c = 92 then
        match r with
        | [] => .error ⟨msgUnterm, 0⟩
        | e :: r1 =>
            if e = 117 then
              match r1 with
              | a :: b :: cc :: d :: r2 =>
                  match hex4 a b cc d with
                  | none => .error ⟨msgBadUni, r2.length + 4⟩
                  | some u =>
                      if 55296 ≤ u && u < 56320 then
                        match pairLow r2 with
                        | some (u2, r3) =>
                            py_scanstring strict f
                              ((65536 + (u - 55296) * 1024 + (u2 - 56320)) :: acc) r3
                        | none => py_scanstring strict f (u :: acc) r2
                      else py_scanstring strict f (u :: acc) r2
              | _ => .error ⟨msgBadUni, r1.length⟩
            else
              match escDecode e with
              | some x => py_scanstring strict f (x :: acc) r1
              | none => .error ⟨msgBadEsc, r1.length + 1⟩
      else if strict && c < 32 then .error ⟨msgCtrl, r.length + 1⟩
      else py_scanstring strict f (c :: acc) r

/-! ### Decoder: configuration and object assembly -/

/-- The `JSONDecoder` construction parameters that bear on the model: the
two object hooks, the float constructor and the strict-strings flag.  Hooks
are modelled as functions back into the value type. -/
structure JSONDecoder where
  object_hook : Option (List (PyStr × JValue) → JValue)
  object_pairs_hook : Option (List (PyStr × JValue) → JValue)
  parse_float : Option FloatCtor
  strict : Bool

/-- The decoder settings equal the sensible defaults: no hooks, default
float constructor, strict strings.  Hook fields compare as `None` does. -/
def JSONDecoder.isSensibleDefaults (d : JSONDecoder) : Bool :=
  d.object_hook.isNone && d.object_pairs_hook.isNone
    && d.parse_float.isNone && d.strict

/-- Insert-or-overwrite one key in an ordered mapping, keeping the position
of an existing key and replacing its value. -/
def dictSet (ps : List (PyStr × JValue)) (k : PyStr) (v : JValue) :
    List (PyStr × JValue) :=
  match ps with
  | [] => [(k, v)]
  | (k0, v0) :: t => if k0 = k then (k0, v) :: t else (k0, v0) :: dictSet t k v

/-- Fold parsed pairs into an ordered mapping, duplicates resolving to the
last written value. -/
def pairsToDict (ps : List (PyStr × JValue)) : List (PyStr × JValue) :=
  ps.foldl (fun acc p => dictSet acc p.1 p.2) []

/-- Modelled from the spec: the object-attach point.  A configured
pair-preserving hook receives the ordered raw pairs and takes precedence;
otherwise the pairs are folded into an ordered mapping that the mapping
hook, when configured, receives. -/
def makeObject (d : JSONDecoder) (ps : List (PyStr × JValue)) : JValue :=
  match d.object_pairs_hook with
  | some h => h ps
  | none =>
      match d.object_hook with
      | some h => h (pairsToDict ps)
      | none => .obj (pairsToDict ps)

/-! ### Decoder: the recursive-descent scanner -/

mutual

/-- Modelled from the spec: scan one JSON value at the head of `cs` after
insignificant whitespace.  The fuel argument keeps the mutual recursion
structural; the top-level decode always provides an adequate amount. -/
def scanValue (d : JSONDecoder) : Nat → PyStr → Except DErr (JValue × PyStr)
  | 0, cs => .error ⟨msgExpValue, cs.length⟩
  | f + 1, cs =>
      match skipWsL cs with
      | [] => .error ⟨msgExpValue, 0⟩
      | c :: r =>
          if c = 34 then
            (py_scanstring d.strict (r.length + 1) [] r).map (fun p => (.str p.1, p.2))
          else if c = 91 then
            match skipWsL r with
            | [] => (scanArray d f []).map (fun p => (.arr p.1, p.2))
            | c2 :: r2 =>
                if c2 = 93 then .ok (.arr [], r2)
                else (scanArray d f (c2 :: r2)).map (fun p => (.arr p.1, p.2))
          else if c = 123 then
            match skipWsL r with
            | [] => (scanObject d f []).map (fun p => (makeObject d p.1, p.2))
            | c2 :: r2 =>
                if c2 = 125 then .ok (makeObject d [], r2)
                else (scanObject d f (c2 :: r2)).map (fun p => (makeObject d p.1, p.2))
          else if c = 110 then
            match r with
            | 117 :: 108 :: 108 :: r2 => .ok (.null, r2)
            | _ => .error ⟨msgExpValue, r.length + 1⟩
          else if c = 116 then
            match r with
            | 114 :: 117 :: 101 :: r2 => .ok (.boolean true, r2)
            | _ => .error ⟨msgExpValue, r.length + 1⟩
          else if c = 102 then
            match r with
            | 97 :: 108 :: 115 :: 101 :: r2 => .ok (.boolean false, r2)
            | _ => .error ⟨msgExpValue, r.length + 1⟩
          else
            match matchNumber (c :: r) with
            | some (lit, r2) => .ok (numValue d.parse_float lit, r2)
            | none => .error ⟨msgExpValue, r.length + 1⟩

/-- Modelled from the spec: scan the remaining items of a non-empty array,
entered at the first item. -/
def scanArray (d : JSONDecoder) : Nat → PyStr → Except DErr (List JValue × PyStr)
  | 0, cs => .error ⟨msgExpValue, cs.length⟩
  | f + 1, cs =>
      match scanValue d f cs with
      | .error e => .error e
      | .ok (v, r) =>
          match skipWsL r with
          | [] => .error ⟨msgCommaDelim, 0⟩
          | c :: r2 =>
              if c = 44 then (scanArray d f (skipWsL r2)).map (fun p => (v :: p.1, p.2))
              else if c = 93 then .ok ([v], r2)
              else .error ⟨msgCommaDelim, r2.length + 1⟩

/-- Modelled from the spec: scan the remaining members of a non-empty
object, entered at the first property name. -/
def scanObject (d : JSONDecoder) :
    Nat → PyStr → Except DErr (List (PyStr × JValue) × PyStr)
  | 0, cs => .error ⟨msgExpValue, cs.length⟩
  | f + 1, cs =>
      match skipWsL cs with
      | [] => .error ⟨msgPropName, 0⟩
      | c :: r =>
          if c = 34 then
            match py_scanstring d.strict (r.length + 1) [] r with
            | .error e => .error e
            | .ok (k, r1) =>
                match skipWsL r1 with
                | [] => .error ⟨msgColonDelim, 0⟩
                | c2 :: r2 =>
                    if c2 = 58 then
                      match scanValue d f (skipWsL r2) with
                      | .error e => .error e
                      | .ok (v, r3) =>
                          match skipWsL r3 with
                          | [] => .error ⟨msgCommaDelim, 0⟩
                          | c3 :: r4 =>
                              if c3 = 44 then
                                (scanObject d f (skipWsL r4)).map
                                  (fun p => ((k, v) :: p.1, p.2))
                              else if c3 = 125 then .ok ([(k, v)], r4)
                              else .error ⟨msgCommaDelim, r4.length + 1⟩
                    else .error ⟨msgColonDelim, r2.length + 1⟩
          else .error ⟨msgPropName, r.length + 1⟩

end

/-- Modelled from the spec: decode one document, requiring only whitespace
after the outermost value. -/
def JSONDecoder.decode (d : JSONDecoder) (s : PyStr) : Except DErr JValue :=
  match scanValue d (s.length + 1) s with
  | .error e => .error e
  | .ok (v, r) =>
      match skipWsL r with
      | [] => .ok v
      | r2 => .error ⟨msgExtra, r2.length⟩

/-! ### Error positions and the public error object -/

/-- Walk `n` characters of the document, tracking a one-based line and
column: a newline bumps the line and resets the column. -/
def linecolGo : PyStr → Nat → Nat → Nat → Nat × Nat
  | _, 0, li, co => (li, co)
  | [], _ + 1, li, co => (li, co)
  | c :: t, n + 1, li, co =>
      if c = 10 then linecolGo t n (li + 1) 1 else linecolGo t n li (co + 1)

/-- The structured decode error surfaced to callers: reason, offending
document and 0-based absolute offset. -/
structure JSONDecodeError where
  msg : PyStr
  doc : PyStr
  pos : Nat
deriving DecidableEq

/-- One-based line of the error position. -/
def JSONDecodeError.lineno (e : JSONDecodeError) : Nat :=
  (linecolGo e.doc e.pos 1 1).1

/-- One-based column of the error position. -/
def JSONDecodeError.colno (e : JSONDecodeError) : Nat :=
  (linecolGo e.doc e.pos 1 1).2

/-- The rendered error text, in the fixed tooling-compatible format. -/
def JSONDecodeError.errtext (e : JSONDecodeError) : PyStr :=
  e.msg ++ str2cp ": line " ++ natDigs e.lineno ++ str2cp " column "
    ++ natDigs e.colno ++ str2cp " (char " ++ natDigs e.pos ++ str2cp ")"

/-! ### Top-level convenience functions (src/nssjson/__init__.py) -/

/-- A failure escaping `loads`: a Python `TypeError` or the structured
decode error. -/
inductive PyErr where
  | typeError
  | jsonError (e : JSONDecodeError)

/-- Run a configured decoder and surface failures as positioned errors. -/
def decodeRun (d : JSONDecoder) (s : PyStr) : Except PyErr JValue :=
  match d.decode s with
  | .ok v => .ok v
  | .error e => .error (.jsonError ⟨e.msg, s, s.length - e.rem⟩)

/-- Keyword arguments accepted by `loads`; a `some` field overrides the
corresponding sensible default. -/
structure DecKw where
  object_hook : Option (Option (List (PyStr × JValue) → JValue))
  object_pairs_hook : Option (Option (List (PyStr × JValue) → JValue))
  parse_float : Option (Option FloatCtor)
  strict : Option Bool

/-- The `loads` keyword set with no overrides. -/
def noDecKw : DecKw := ⟨none, none, none, none⟩

/-- The settings dictionary built by `loads`: the sensible defaults updated
with the supplied keyword arguments. -/
def mergeDec (kw : DecKw) : JSONDecoder :=
  { object_hook := kw.object_hook.getD none
    object_pairs_hook := kw.object_pairs_hook.getD none
    parse_float := kw.parse_float.getD none
    strict := kw.strict.getD true }

/-- The cached module-level decoder built from the defaults. -/
def _default_decoder : JSONDecoder := mergeDec noDecKw

/-- `loads`, translated from src/nssjson/__init__.py lines 227-260:
merge the keywords over the defaults; `use_decimal` demands that no other
float constructor was supplied, raising `TypeError` otherwise, and selects
`Decimal`; the cached decoder serves the default-settings case. -/
def loads (s : PyStr) (cls : Option Unit) (use_decimal : Bool) (kw : DecKw) :
    Except PyErr JValue :=
  let settings := mergeDec kw
  if use_decimal && settings.parse_float.isSome then .error .typeError
  else
    let settings :=
      if use_decimal then { settings with parse_float := some .decimalC }
      else settings
    if cls.isNone && settings.isSensibleDefaults then decodeRun _default_decoder s
    else decodeRun settings s

/-- Keyword arguments accepted by `dump` and `dumps`; a `some` field
overrides the corresponding sensible default. -/
structure EncKw where
  skipkeys : Option Bool
  ensure_ascii : Option Bool
  check_circular : Option Bool
  allow_nan : Option Bool
  indent : Option (Option PyStr)
  separators : Option (Option (PyStr × PyStr))
  sort_keys : Option Bool

/-- The `dumps` keyword set with no overrides. -/
def noEncKw : EncKw := ⟨none, none, none, none, none, none, none⟩

/-- The settings dictionary built by `dump` and `dumps`. -/
def mergeEnc (kw : EncKw) : JSONEncoder :=
  { skipkeys := kw.skipkeys.getD false
    ensure_ascii := kw.ensure_ascii.getD true
    check_circular := kw.check_circular.getD true
    allow_nan := kw.allow_nan.getD true
    indent := kw.indent.getD none
    separators := kw.separators.getD none
    sort_keys := kw.sort_keys.getD false }

/-- The cached module-level encoder built from the defaults. -/
def _default_encoder : JSONEncoder := mergeEnc noEncKw

/-- `dumps`, translated from src/nssjson/__init__.py lines 171-196: the
cached encoder serves the default-settings case, any other configuration
constructs a fresh encoder. -/
def dumps (obj : JValue) (cls : Option Unit) (kw : EncKw) : PyStr :=
  let settings := mergeEnc kw
  if cls.isNone && settings = SENSIBLE_DEFAULTS then _default_encoder.encode obj
  else settings.encode obj

/-- `dump`, translated from src/nssjson/__init__.py lines 139-168: the
chunk sequence of the selected encoder is written chunk by chunk to the
accumulating file object `fp`, whose final contents are returned. -/
def dump (obj : JValue) (fp : PyStr) (cls : Option Unit) (kw : EncKw) : PyStr :=
  let settings := mergeEnc kw
  let iterable :=
    if cls.isNone && settings = SENSIBLE_DEFAULTS then _default_encoder.iterencode obj
    else settings.iterencode obj
  iterable.foldl (fun acc chunk => acc ++ chunk) fp

/-! ### Well-formed values for the round-trip -/

/-- No high surrogate immediately followed by a low surrogate: such a
string survives the encode/decode cycle, because the decoder re-combines
adjacent surrogate escapes. -/
def surrSafe : PyStr → Bool
  | a :: b :: t =>
      !(55296 ≤ a && a < 56320 && 56320 ≤ b && b < 57344) && surrSafe (b :: t)
  | _ => true

/-- All codepoints within Unicode range. -/
def cpOk (s : PyStr) : Bool := s.all (fun c => c < 1114112)

/-- A string the default configuration round-trips. -/
def strOk (s : PyStr) : Bool := cpOk s && surrSafe s

/-- Each key occurs at most once in the member list. -/
def nodupKeys : List (PyStr × JValue) → Bool
  | [] => true
  | (k, _) :: t => t.all (fun q => !(q.1 == k)) && nodupKeys t

mutual

/-- A value within the round-trip fragment: canonical floats, no raw
decimals, round-trippable strings, and duplicate-free object keys. -/
def wfJ : JValue → Bool
  | .null => true
  | .boolean _ => true
  | .int _ => true
  | .float m e => canonF m e
  | .dec _ _ => false
  | .str s => strOk s
  | .arr vs => wfL vs
  | .obj ms => nodupKeys ms && wfM ms

/-- All elements well formed. -/
def wfL : List JValue → Bool
  | [] => true
  | v :: t => wfJ v && wfL t

/-- All members well formed with round-trippable keys. -/
def wfM : List (PyStr × JValue) → Bool
  | [] => true
  | (k, v) :: t => strOk k && wfJ v && wfM t

end

/-! ### The cycle guard (encoder object graphs) -/

/-- Modelled from the spec: an in-memory Python object for the purpose of
cycle detection, identified by its index into a heap: a leaf, a list of
element identities, or a dict of keyed element identities. -/
inductive PyObj where
  | leaf
  | listy (elems : List Nat)
  | dicty (fields : List (PyStr × Nat))

/-- The child identities of a heap node. -/
def childIds : PyObj → List Nat
  | .leaf => []
  | .listy es => es
  | .dicty fs => fs.map Prod.snd

/-- The node a heap identity designates, out-of-range identities acting as
leaves. -/
def heapAt (heap : List PyObj) (i : Nat) : PyObj := heap.getD i .leaf

/-- A heap identity that designates a container. -/
def isCont (heap : List PyObj) (i : Nat) : Bool :=
  match heapAt heap i with
  | .leaf => false
  | _ => true

/-- Failures of the graph encoder: a detected circular reference, or fuel
exhaustion (never reached from the top level). -/
inductive CErr where
  | circular
  | fuelOut
deriving DecidableEq

mutual

/-- Modelled from the spec: the encoder walk with the cycle guard.
`active` holds the identities of the containers on the current path; a
container already on it raises the circular failure, and an identity is
released simply by returning, when its container completes. -/
def encG (heap : List PyObj) : Nat → List Nat → Nat → Except CErr PyStr
  | 0, _, _ => .error .fuelOut
  | f + 1, active, i =>
      match heapAt heap i with
      | .leaf => .ok (str2cp "null")
      | .listy es =>
          if i ∈ active then .error .circular
          else (encGL heap f (i :: active) es).map (fun t => 91 :: t ++ [93])
      | .dicty fs =>
          if i ∈ active then .error .circular
          else
            (encGL heap f (i :: active) (fs.map Prod.snd)).map
              (fun t => 123 :: t ++ [125])

/-- Encode a run of child identities in order, aborting at the first
failure. -/
def encGL (heap : List PyObj) : Nat → List Nat → List Nat → Except CErr PyStr
  | 0, _, _ => .error .fuelOut
  | f + 1, active, ids =>
      match ids with
      | [] => .ok []
      | i :: t =>
          match encG heap f active i with
          | .error e => .error e
          | .ok s =>
              match encGL heap f active t with
              | .error e => .error e
              | .ok s2 => .ok (s ++ s2)

end

/-- Reachability along container edges of the heap. -/
inductive Reach (heap : List PyObj) : Nat → Nat → Prop where
  | refl (i : Nat) : Reach heap i i
  | step (i c j : Nat) : c ∈ childIds (heapAt heap i) → Reach heap c j →
      Reach heap i j

/-- A continuation that cannot extend a number literal: empty, or headed by
a character that is no digit and none of dot, `e`, `E`.  Every separator,
closing bracket and end of input qualifies. -/
def numBoundary : PyStr → Bool
  | [] => true
  | c :: _ => !(digitCp c || c == 46 || c == 101 || c == 69)

/-- The continuation starts with a low-surrogate backslash-u escape, the
one shape the unescaper pairs with a preceding high surrogate. -/
def lowEscHead : PyStr → Bool
  | a :: b :: x :: y :: z :: w :: _ =>
      a == 92 && b == 117 &&
        (match hex4 x y z w with
         | some u2 => 56320 ≤ u2 && u2 < 57344
         | none => false)
  | _ => false

/-! ### Key sorting is ordered and a permutation -/

/-- The lexicographic order is total. -/
theorem lexLe_total (a b : PyStr) : lexLe a b = true ∨ lexLe b a = true := by
  induction a generalizing b with
  | nil => exact Or.inl rfl
  | cons x xs ih =>
      cases b with
      | nil => exact Or.inr rfl
      | cons y ys =>
          rcases Nat.lt_trichotomy x y with hxy | hxy | hxy
          · exact Or.inl (by simp [lexLe, hxy])
          · subst hxy
            rcases ih ys with h | h
            · exact Or.inl (by simp [lexLe, h])
            · exact Or.inr (by simp [lexLe, h])
          · exact Or.inr (by simp [lexLe, hxy])

/-- Inserting into a key-chained member list keeps the chain. -/
theorem insertPair_chain (p : PyStr × JValue) :
    ∀ l, List.Chain' (fun a b : PyStr × JValue => lexLe a.1 b.1 = true) l →
      List.Chain' (fun a b : PyStr × JValue => lexLe a.1 b.1 = true) (insertPair p l) := by
  intro l
  induction l with
  | nil => intro _; simp [insertPair]
  | cons q qs ih =>
      intro h
      rw [List.chain'_cons'] at h
      by_cases hpq : lexLe p.1 q.1 = true
      · rw [insertPair, if_pos hpq, List.chain'_cons, List.chain'_cons']
        exact ⟨hpq, h⟩
      · rw [insertPair, if_neg hpq, List.chain'_cons']
        refine ⟨?_, ih h.2⟩
        intro y hy
        have hqp : lexLe q.1 p.1 = true := (lexLe_total p.1 q.1).resolve_left hpq
        cases qs with
        | nil => simp [insertPair] at hy; subst hy; exact hqp
        | cons q2 qs2 =>
            by_cases hpq2 : lexLe p.1 q2.1 = true
            · simp [insertPair, if_pos hpq2] at hy
              subst hy; exact hqp
            · simp [insertPair, if_neg hpq2] at hy
              subst hy
              exact h.1 q2 rfl

/-- Insertion is a permutation with consing. -/
theorem insertPair_perm (p : PyStr × JValue) :
    ∀ l, (insertPair p l).Perm (p :: l) := by
  intro l
  induction l with
  | nil => simp [insertPair]
  | cons q qs ih =>
      by_cases hpq : lexLe p.1 q.1 = true
      · rw [insertPair, if_pos hpq]
      · rw [insertPair, if_neg hpq]
        exact (ih.cons q).trans (List.Perm.swap p q qs)

/-- The sorted members are key-chained. -/
theorem sortPairs_chain (ps : List (PyStr × JValue)) :
    List.Chain' (fun a b : PyStr × JValue => lexLe a.1 b.1 = true) (sortPairs ps) := by
  induction ps with
  | nil => simp [sortPairs]
  | cons p t ih => exact insertPair_chain p _ ih

/-- Sorting permutes the members. -/
theorem sortPairs_perm (ps : List (PyStr × JValue)) : (sortPairs ps).Perm ps := by
  induction ps with
  | nil => simp [sortPairs]
  | cons p t ih => exact (insertPair_perm p (sortPairs t)).trans (ih.cons p)

/-- With `sortKeys` set, the emitted keys of every object are in
lexicographic order whatever the insertion order was (the sorted member
list the encoder lays out is key-ordered yet a permutation of the input),
and the documented example renders exactly as stated. -/
theorem sort_keys_lexicographic :
    (∀ ps : List (PyStr × JValue),
      List.Chain' (fun a b : PyStr => lexLe a b = true) ((sortPairs ps).map Prod.fst)
      ∧ (sortPairs ps).Perm ps)
    ∧ dumps (.obj [(str2cp "c", .int 0), (str2cp "b", .int 0), (str2cp "a", .int 0)])
        none ⟨none, none, none, none, none, none, some true⟩
      = str2cp "\x7b\"a\": 0, \"b\": 0, \"c\": 0\x7d" := by
  constructor
  · intro ps
    refine ⟨?_, sortPairs_perm ps⟩
    rw [List.chain'_map]
    exact sortPairs_chain ps
  · rfl

/-! ### ASCII-only string output -/

/-- A hexadecimal digit codepoint is printable ASCII. -/
theorem hexDig_range (n : Nat) (h : n < 16) : 32 ≤ hexDig n ∧ hexDig n ≤ 126 := by
  unfold hexDig
  by_cases h10 : n < 10 <;> (simp [h10]; omega)

/-- Every character of a backslash-u escape is printable ASCII. -/
theorem esc4_range (x : Nat) : ∀ y ∈ esc4 x, 32 ≤ y ∧ y ≤ 126 := by
  intro y hy
  simp only [esc4, List.mem_cons, List.not_mem_nil, or_false] at hy
  rcases hy with rfl | rfl | rfl | rfl | rfl | rfl <;>
    first
      | omega
      | exact hexDig_range _ (Nat.mod_lt _ (by omega))

/-- With ASCII-only output every emitted character of a codepoint's
rendering is printable ASCII. -/
theorem escCp_ascii_range (c : Nat) : ∀ y ∈ escCp true c, 32 ≤ y ∧ y ≤ 126 := by
  intro y hy
  rw [escCp] at hy
  by_cases h1 : c = 34
  · rw [if_pos h1] at hy; simp at hy; (rcases hy with rfl | rfl) <;> omega
  rw [if_neg h1] at hy
  by_cases h2 : c = 92
  · rw [if_pos h2] at hy; simp at hy; (rcases hy with rfl | rfl) <;> omega
  rw [if_neg h2] at hy
  by_cases h3 : c = 8
  · rw [if_pos h3] at hy; simp at hy; (rcases hy with rfl | rfl) <;> omega
  rw [if_neg h3] at hy
  by_cases h4 : c = 9
  · rw [if_pos h4] at hy; simp at hy; (rcases hy with rfl | rfl) <;> omega
  rw [if_neg h4] at hy
  by_cases h5 : c = 10
  · rw [if_pos h5] at hy; simp at hy; (rcases hy with rfl | rfl) <;> omega
  rw [if_neg h5] at hy
  by_cases h6 : c = 12
  · rw [if_pos h6] at hy; simp at hy; (rcases hy with rfl | rfl) <;> omega
  rw [if_neg h6] at hy
  by_cases h7 : c = 13
  · rw [if_pos h7] at hy; simp at hy; (rcases hy with rfl | rfl) <;> omega
  rw [if_neg h7] at hy
  by_cases h8 : c < 32
  · rw [if_pos h8] at hy; exact esc4_range _ y hy
  rw [if_neg h8] at hy
  by_cases h9 : c ≤ 126
  · rw [if_pos h9] at hy; simp at hy; omega
  rw [if_neg h9, if_pos rfl] at hy
  by_cases h10 : c < 65536
  · rw [if_pos h10] at hy; exact esc4_range _ y hy
  rw [if_neg h10] at hy
  rcases List.mem_append.mp hy with h | h <;> exact esc4_range _ y h

/-- All characters of the escaped body are printable ASCII. -/
theorem concatMap_escCp_range (s : PyStr) :
    ∀ y ∈ concatMap (escCp true) s, 32 ≤ y ∧ y ≤ 126 := by
  induction s with
  | nil => intro y hy; simp [concatMap] at hy
  | cons c t ih =>
      intro y hy
      simp only [concatMap] at hy
      rcases List.mem_append.mp hy with h | h
      · exact escCp_ascii_range c y h
      · exact ih y h

/-- Claim C6: with `ensureAsciiOutput` (the default) the rendered string
text is printable ASCII throughout (so the quote, the backslash, every
control character and every non-ASCII codepoint have been escaped), and the
documented examples render exactly as stated, including the surrogate-pair
split of a codepoint beyond the BMP. -/
theorem ensure_ascii_escaping :
    (∀ (s : PyStr) (y : Nat), y ∈ encodeBasestring true s → 32 ≤ y ∧ y ≤ 126)
    ∧ dumps (.str [4660]) none noEncKw = str2cp "\"\\u1234\""
    ∧ dumps (.str [233]) none noEncKw = str2cp "\"\\u00e9\""
    ∧ dumps (.str (str2cp "a\"b\\c")) none noEncKw = str2cp "\"a\\\"b\\\\c\""
    ∧ dumps (.str [128512]) none noEncKw = str2cp "\"\\ud83d\\ude00\"" := by
  refine ⟨?_, rfl, rfl, rfl, rfl⟩
  intro s y hy
  rw [encodeBasestring] at hy
  cases hy with
  | head => omega
  | tail _ h =>
      cases List.mem_append.mp h with
      | inl h2 => exact concatMap_escCp_range s y h2
      | inr h2 => simp at h2; omega

/-- Claim C8: the single-pair object rendered with a two-space indent is
exactly an opening brace, a newline-plus-indent line holding the member
with no trailing whitespace, and a closing brace on its own line. -/
theorem indent_two_spaces_example :
    dumps (.obj [(str2cp "a", .int 1)]) none
        ⟨none, none, none, none, some (some (str2cp "  ")), none, none⟩
      = str2cp "\x7b\n  \"a\": 1\n\x7d" := rfl

/-! ### use_decimal and the cached default codecs -/

/-- Claim C9: `loads` with `use_decimal` refuses a simultaneously supplied
float constructor with a `TypeError` before any decoding, otherwise decodes
with the `Decimal` constructor, as the concrete example shows. -/
theorem use_decimal_behavior :
    (∀ (s : PyStr) (kw : DecKw) (pf : FloatCtor),
      (mergeDec kw).parse_float = some pf →
      loads s none true kw = .error .typeError)
    ∧ (∀ (s : PyStr) (kw : DecKw),
      (mergeDec kw).parse_float = none →
      loads s none true kw =
        decodeRun { mergeDec kw with parse_float := some .decimalC } s)
    ∧ loads (str2cp "1.1") none true noDecKw = .ok (.dec 11 (-1)) := by
  refine ⟨?_, ?_, rfl⟩
  · intro s kw pf h
    rw [loads]
    simp [h]
  · intro s kw h
    rw [loads]
    have hs : ({ mergeDec kw with parse_float := some FloatCtor.decimalC
        } : JSONDecoder).isSensibleDefaults = false := by
      simp [JSONDecoder.isSensibleDefaults]
    simp [h, hs]

/-- Claim C9 witness: both hypothetical branches fire at concrete inputs. -/
theorem use_decimal_behavior_witness :
    loads (str2cp "1.1") none true ⟨none, none, some (some .decimalC), none⟩
      = .error .typeError
    ∧ loads (str2cp "1.1") none true noDecKw =
        decodeRun { mergeDec noDecKw with parse_float := some .decimalC }
          (str2cp "1.1") := by
  constructor
  · exact use_decimal_behavior.1 (str2cp "1.1")
      ⟨none, none, some (some .decimalC), none⟩ .decimalC rfl
  · exact use_decimal_behavior.2.1 (str2cp "1.1") noDecKw rfl

/-- Default-looking decoder settings are the default decoder record. -/
theorem isSensibleDefaults_eq (d : JSONDecoder)
    (h : d.isSensibleDefaults = true) : d = _default_decoder := by
  obtain ⟨oh, oph, pfl, st⟩ := d
  simp only [JSONDecoder.isSensibleDefaults, Bool.and_eq_true,
    Option.isNone_iff_eq_none] at h
  obtain ⟨⟨⟨h1, h2⟩, h3⟩, h4⟩ := h
  subst h1; subst h2; subst h3; subst h4
  rfl

/-- Claim C10: for any keyword set, `dumps` and `loads` (with `cls=None`,
`use_decimal` unset) return exactly what a freshly constructed codec with
the merged settings would: the cached default-codec dispatch is
observationally pure. -/
theorem cached_codecs_observationally_pure :
    (∀ (obj : JValue) (kw : EncKw),
      dumps obj none kw = (mergeEnc kw).encode obj)
    ∧ (∀ (s : PyStr) (kw : DecKw),
      loads s none false kw = decodeRun (mergeDec kw) s) := by
  constructor
  · intro obj kw
    have unf : dumps obj none kw =
        (if decide (mergeEnc kw = SENSIBLE_DEFAULTS) = true
         then _default_encoder.encode obj
         else (mergeEnc kw).encode obj) := rfl
    rw [unf]
    by_cases h : mergeEnc kw = SENSIBLE_DEFAULTS
    · rw [if_pos (by simp [h]), h]; rfl
    · rw [if_neg (by simp [h])]
  · intro s kw
    have unf : loads s none false kw =
        (if (mergeDec kw).isSensibleDefaults = true then decodeRun _default_decoder s
         else decodeRun (mergeDec kw) s) := rfl
    rw [unf]
    by_cases h : (mergeDec kw).isSensibleDefaults = true
    · rw [if_pos h, isSensibleDefaults_eq _ h]
    · rw [if_neg h]

/-! ### Streaming chunks concatenate to the encoded string -/

/-- Concatenating no chunks. -/
theorem concatL_nil : concatL ([] : List (List α)) = [] := rfl

/-- Concatenating a cons of chunks. -/
theorem concatL_cons (x : List α) (l : List (List α)) :
    concatL (x :: l) = x ++ concatL l := rfl

/-- Concatenation distributes over chunk-list append. -/
theorem concatL_append (a b : List (List α)) :
    concatL (a ++ b) = concatL a ++ concatL b := by
  induction a with
  | nil => rfl
  | cons x t ih => simp [concatL_cons, ih]

/-- A single chunk concatenates to itself. -/
theorem concatL_singleton (x : List α) : concatL [x] = x := by
  simp [concatL, concatMap]

/-- Writing chunks one by one after `a` appends their concatenation. -/
theorem foldl_append_concatL (l : List (List α)) :
    ∀ a : List α, l.foldl (fun acc c => acc ++ c) a = a ++ concatL l := by
  induction l with
  | nil => intro a; simp [concatL, concatMap]
  | cons x t ih => intro a; simp [ih, concatL_cons]

/-- The streaming serializer's chunks concatenate to the one-shot
serializer's output, at every fuel, level and task. -/
theorem join_iterGo (cfg : JSONEncoder) :
    ∀ (f lvl : Nat) (t : EncTask), concatL (iterGo cfg f lvl t) = encGo cfg f lvl t := by
  intro f
  induction f with
  | zero => intro lvl t; rfl
  | succ f ih =>
      intro lvl t
      cases t with
      | one v =>
          cases v with
          | null => simp [iterGo, encGo, concatL_singleton]
          | boolean b => cases b <;> simp [iterGo, encGo, concatL_singleton]
          | int i => simp [iterGo, encGo, concatL_singleton]
          | float m e => simp [iterGo, encGo, concatL_singleton]
          | dec m e => simp [iterGo, encGo, concatL_singleton]
          | str s => simp [iterGo, encGo, concatL_singleton]
          | arr vs =>
              cases vs with
              | nil => simp [iterGo, encGo, concatL_singleton]
              | cons x xs =>
                  simp [iterGo, encGo, concatL_cons, concatL_append,
                    concatL_singleton, concatL_nil, ih]
          | obj ms =>
              cases hms : (if cfg.sort_keys then sortPairs ms else ms) with
              | nil => simp [iterGo, encGo, hms, concatL_singleton]
              | cons p ps =>
                  simp [iterGo, encGo, hms, concatL_cons, concatL_append,
                    concatL_singleton, concatL_nil, ih]
      | items vs =>
          cases vs with
          | nil => simp [iterGo, encGo, concatL_nil]
          | cons x xs =>
              cases xs with
              | nil => simp [iterGo, encGo, ih]
              | cons y ys =>
                  simp [iterGo, encGo, concatL_cons, concatL_append,
                    concatL_singleton, concatL_nil, ih]
      | members ps =>
          cases ps with
          | nil => simp [iterGo, encGo, concatL_nil]
          | cons p qs =>
              cases qs with
              | nil => simp [iterGo, encGo, concatL_cons, ih]
              | cons q rs =>
                  simp [iterGo, encGo, concatL_cons, concatL_append,
                    concatL_singleton, concatL_nil, ih]

/-- Claim C2: the chunk sequence of the streaming interface concatenates to
the string interface's output for every value and configuration, and after
`dump(obj, fp)` the text accumulated in `fp` is exactly `fp` followed by
`dumps(obj)` under the same class and keyword arguments. -/
theorem dump_writes_dumps :
    (∀ (cfg : JSONEncoder) (v : JValue),
      concatL (cfg.iterencode v) = cfg.encode v)
    ∧ (∀ (obj : JValue) (fp : PyStr) (cls : Option Unit) (kw : EncKw),
      dump obj fp cls kw = fp ++ dumps obj cls kw) := by
  have key : ∀ (cfg : JSONEncoder) (v : JValue),
      concatL (cfg.iterencode v) = cfg.encode v :=
    fun cfg v => join_iterGo cfg _ _ _
  refine ⟨key, ?_⟩
  intro obj fp cls kw
  simp only [dump, dumps]
  by_cases h : (cls.isNone && decide (mergeEnc kw = SENSIBLE_DEFAULTS)) = true
  · rw [if_pos h, if_pos h, foldl_append_concatL, key]
  · rw [if_neg h, if_neg h, foldl_append_concatL, key]

/-! ### Duplicate keys fold last-wins; hook dispatch -/

/-- Looking a key up across an append tries the left run first. -/
theorem lookup_append (k : PyStr) (l1 l2 : List (PyStr × JValue)) :
    List.lookup k (l1 ++ l2)
      = match List.lookup k l1 with
        | some v => some v
        | none => List.lookup k l2 := by
  induction l1 with
  | nil => simp
  | cons p t ih =>
      by_cases h : k = p.1
      · have hb : (k == p.1) = true := beq_iff_eq.mpr h
        simp [List.lookup, hb]
      · have hb : (k == p.1) = false := beq_eq_false_iff_ne.mpr h
        simp [List.lookup, hb, ih]

/-- Looking up after an insert-or-overwrite. -/
theorem lookup_dictSet (k k0 : PyStr) (v0 : JValue) :
    ∀ acc, List.lookup k (dictSet acc k0 v0)
      = if k = k0 then some v0 else List.lookup k acc := by
  intro acc
  induction acc with
  | nil =>
      by_cases h : k = k0
      · have hb : (k == k0) = true := beq_iff_eq.mpr h
        simp [dictSet, List.lookup, hb, h]
      · have hb : (k == k0) = false := beq_eq_false_iff_ne.mpr h
        simp [dictSet, List.lookup, hb, h]
  | cons q t ih =>
      obtain ⟨k1, v1⟩ := q
      rw [dictSet]
      by_cases h10 : k1 = k0
      · subst h10
        rw [if_pos rfl]
        by_cases hk : k = k1
        · have hb : (k == k1) = true := beq_iff_eq.mpr hk
          simp [List.lookup, hb, hk]
        · have hb : (k == k1) = false := beq_eq_false_iff_ne.mpr hk
          simp [List.lookup, hb, hk]
      · rw [if_neg h10]
        by_cases hk : k = k1
        · have hb : (k == k1) = true := beq_iff_eq.mpr hk
          have hk0 : ¬k = k0 := fun he => h10 (hk.symm.trans he)
          simp [List.lookup, hb, hk0]
        · have hb : (k == k1) = false := beq_eq_false_iff_ne.mpr hk
          simp [List.lookup, hb, ih]

/-- The keys after an insert-or-overwrite: unchanged for a present key,
appended for a fresh one. -/
theorem keys_dictSet (k0 : PyStr) (v0 : JValue) :
    ∀ acc : List (PyStr × JValue), (dictSet acc k0 v0).map Prod.fst
      = if k0 ∈ acc.map Prod.fst then acc.map Prod.fst
        else acc.map Prod.fst ++ [k0] := by
  intro acc
  induction acc with
  | nil => simp [dictSet]
  | cons q t ih =>
      obtain ⟨k1, v1⟩ := q
      rw [dictSet]
      by_cases h10 : k1 = k0
      · subst h10
        simp
      · rw [if_neg h10]
        by_cases hm : k0 ∈ t.map Prod.fst
        · simp [hm, ih, Ne.symm h10]
        · simp [hm, ih, Ne.symm h10]

/-- The folded keys stay duplicate-free. -/
theorem nodup_keys_dictSet (k0 : PyStr) (v0 : JValue)
    (acc : List (PyStr × JValue)) (h : (acc.map Prod.fst).Nodup) :
    ((dictSet acc k0 v0).map Prod.fst).Nodup := by
  rw [keys_dictSet]
  by_cases hm : k0 ∈ acc.map Prod.fst
  · simpa [hm] using h
  · simp [hm, List.nodup_append, h]

/-- The dict fold resolves each key to its last written value: looking up
in the folded mapping is looking up in the reversed raw pair list. -/
theorem lookup_pairsToDictAux (ps : List (PyStr × JValue)) :
    ∀ (acc : List (PyStr × JValue)) (k : PyStr),
      List.lookup k (ps.foldl (fun a p => dictSet a p.1 p.2) acc)
        = match List.lookup k ps.reverse with
          | some v => some v
          | none => List.lookup k acc := by
  induction ps with
  | nil => intro acc k; simp
  | cons p t ih =>
      intro acc k
      rw [List.foldl_cons, ih, List.reverse_cons, lookup_append]
      cases List.lookup k t.reverse with
      | some v => rfl
      | none =>
          rw [lookup_dictSet]
          by_cases hk : k = p.1
          · have hb : (k == p.1) = true := beq_iff_eq.mpr hk
            simp [List.lookup, hb, hk]
          · have hb : (k == p.1) = false := beq_eq_false_iff_ne.mpr hk
            simp [List.lookup, hb, hk]

/-- Duplicate-key resolution, last write wins. -/
theorem lookup_pairsToDict (ps : List (PyStr × JValue)) (k : PyStr) :
    List.lookup k (pairsToDict ps) = List.lookup k ps.reverse := by
  rw [pairsToDict, lookup_pairsToDictAux]
  cases List.lookup k ps.reverse <;> simp

/-- The folded mapping binds each key exactly once. -/
theorem nodup_pairsToDict (ps : List (PyStr × JValue)) :
    ((pairsToDict ps).map Prod.fst).Nodup := by
  rw [pairsToDict]
  have aux : ∀ (l : List (PyStr × JValue)) (acc : List (PyStr × JValue)),
      (acc.map Prod.fst).Nodup →
      ((l.foldl (fun a p => dictSet a p.1 p.2) acc).map Prod.fst).Nodup := by
    intro l
    induction l with
    | nil => intro acc h; simpa using h
    | cons p t ih =>
        intro acc h
        rw [List.foldl_cons]
        exact ih _ (nodup_keys_dictSet p.1 p.2 acc h)
  exact aux ps [] (by simp)

/-- Claim C4: decoding with default hooks folds duplicate keys into a
single last-written binding with duplicate-free keys; a pair-preserving
hook receives every raw pair in source order; and when both hooks are
configured only the pair-preserving one is applied. -/
theorem object_hooks_and_duplicate_keys :
    (∀ (ps : List (PyStr × JValue)) (k : PyStr),
      List.lookup k (pairsToDict ps) = List.lookup k ps.reverse)
    ∧ (∀ ps : List (PyStr × JValue), ((pairsToDict ps).map Prod.fst).Nodup)
    ∧ loads (str2cp "\x7b\"a\":1,\"a\":2\x7d") none false noDecKw
        = .ok (.obj [(str2cp "a", .int 2)])
    ∧ (∀ h : List (PyStr × JValue) → JValue,
        loads (str2cp "\x7b\"a\":1,\"a\":2\x7d") none false
            ⟨none, some (some h), none, none⟩
          = .ok (h [(str2cp "a", .int 1), (str2cp "a", .int 2)]))
    ∧ (∀ (h g : List (PyStr × JValue) → JValue),
        loads (str2cp "\x7b\"a\":1,\"a\":2\x7d") none false
            ⟨some (some g), some (some h), none, none⟩
          = .ok (h [(str2cp "a", .int 1), (str2cp "a", .int 2)])) :=
  ⟨lookup_pairsToDict, nodup_pairsToDict, rfl, fun _ => rfl, fun _ _ => rfl⟩

/-! ### Error positions: line, column and format -/

/-- Taking while across a one-element append. -/
theorem takeWhile_append_one (p : Nat → Bool) (x : Nat) :
    ∀ l : PyStr, (l ++ [x]).takeWhile p
      = if l.all p then l ++ [x].takeWhile p else l.takeWhile p := by
  intro l
  induction l with
  | nil => simp
  | cons a t ih =>
      by_cases ha : p a
      · by_cases hall : t.all p
        · simp [List.takeWhile_cons, List.all_cons, ha, hall, ih]
        · simp [List.takeWhile_cons, List.all_cons, ha, hall, ih]
      · simp [List.takeWhile_cons, List.all_cons, ha]

/-- A list without newlines satisfies the no-newline predicate. -/
theorem all_not_nl (l : PyStr) (h : 10 ∉ l) :
    l.all (fun c => !(c == 10)) = true := by
  rw [List.all_eq_true]
  intro x hx
  simp only [Bool.not_eq_eq_eq_not, Bool.not_true, beq_eq_false_iff_ne]
  intro he; subst he; exact h hx

/-- Taking while a predicate that holds everywhere keeps the list. -/
theorem takeWhile_of_all (p : Nat → Bool) :
    ∀ l : PyStr, l.all p = true → l.takeWhile p = l := by
  intro l
  induction l with
  | nil => intro _; rfl
  | cons a t ih =>
      intro h
      simp only [List.all_cons, Bool.and_eq_true] at h
      simp [List.takeWhile_cons, h.1, ih h.2]

/-- The line of the scanning line/column walk is one plus the newlines
passed, matching the counting rule of the spec. -/
theorem linecolGo_fst : ∀ (doc : PyStr) (n L C : Nat),
    (linecolGo doc n L C).1 = L + (doc.take n).count 10 := by
  intro doc
  induction doc with
  | nil => intro n L C; cases n <;> simp [linecolGo]
  | cons c t ih =>
      intro n L C
      cases n with
      | zero => simp [linecolGo]
      | succ n =>
          by_cases hc : c = 10
          · subst hc
            rw [List.take_succ_cons]
            simp [linecolGo, ih, List.count_cons]
            omega
          · rw [List.take_succ_cons]
            have hb : (c == 10) = false := beq_eq_false_iff_ne.mpr hc
            simp [linecolGo, hc, ih, List.count_cons, hb]

/-- The column of the scanning walk: one-based distance from the last
newline passed, or the start column advanced by the offset. -/
theorem linecolGo_snd : ∀ (doc : PyStr) (n L C : Nat),
    (linecolGo doc n L C).2
      = if 10 ∈ doc.take n
        then ((doc.take n).reverse.takeWhile (fun c => !(c == 10))).length + 1
        else C + (doc.take n).length := by
  intro doc
  induction doc with
  | nil => intro n L C; cases n <;> simp [linecolGo]
  | cons c t ih =>
      intro n L C
      cases n with
      | zero => simp [linecolGo]
      | succ n =>
          rw [List.take_succ_cons]
          by_cases hc : c = 10
          · subst hc
            rw [show linecolGo (10 :: t) (n + 1) L C = linecolGo t n (L + 1) 1 from by
              simp [linecolGo]]
            rw [ih]
            have hmem : 10 ∈ 10 :: t.take n := List.mem_cons_self 10 _
            rw [if_pos hmem, List.reverse_cons, takeWhile_append_one]
            by_cases hm : 10 ∈ t.take n
            · have hnall : (t.take n).reverse.all (fun c => !(c == 10)) = false := by
                rw [Bool.eq_false_iff]
                intro hall
                rw [List.all_eq_true] at hall
                have := hall 10 (List.mem_reverse.mpr hm)
                simp at this
              rw [if_pos hm, if_neg (by simp [hnall])]
            · have hall : (t.take n).reverse.all (fun c => !(c == 10)) = true :=
                all_not_nl _ (fun hx => hm (List.mem_reverse.mp hx))
              rw [if_neg hm, if_pos hall]
              simp [List.takeWhile_cons]
              omega
          · have hb : (c == 10) = false := beq_eq_false_iff_ne.mpr hc
            rw [show linecolGo (c :: t) (n + 1) L C = linecolGo t n L (C + 1) from by
              simp [linecolGo, hc]]
            rw [ih]
            have hmem : (10 ∈ c :: t.take n) ↔ 10 ∈ t.take n := by
              simp [List.mem_cons, Ne.symm hc]
            by_cases hm : 10 ∈ t.take n
            · have hnall : (t.take n).reverse.all (fun c => !(c == 10)) = false := by
                rw [Bool.eq_false_iff]
                intro hall
                rw [List.all_eq_true] at hall
                have := hall 10 (List.mem_reverse.mpr hm)
                simp at this
              rw [if_pos hm, if_pos (hmem.mpr hm), List.reverse_cons,
                takeWhile_append_one, if_neg (by simp [hnall])]
            · rw [if_neg hm, if_neg (fun h => hm (hmem.mp h))]
              simp
              omega

/-- Claim C3 (amended wording): every structured decode error renders as
reason, 1-based line derived by counting newlines up to the 0-based
absolute offset, 1-based column, and offset, in the fixed format; the
documented example fails at offset 2, line 1, column 3, with reason
`Expecting property name`. -/
theorem decode_error_position_format :
    (∀ e : JSONDecodeError,
      e.errtext = e.msg ++ str2cp ": line " ++ natDigs e.lineno ++ str2cp " column "
        ++ natDigs e.colno ++ str2cp " (char " ++ natDigs e.pos ++ str2cp ")"
      ∧ e.lineno = (e.doc.take e.pos).count 10 + 1
      ∧ e.colno
          = ((e.doc.take e.pos).reverse.takeWhile (fun c => !(c == 10))).length + 1)
    ∧ loads (str2cp "\x7b 1.2:3.4\x7d") none false noDecKw
        = .error (.jsonError ⟨msgPropName, str2cp "\x7b 1.2:3.4\x7d", 2⟩)
    ∧ JSONDecodeError.errtext ⟨msgPropName, str2cp "\x7b 1.2:3.4\x7d", 2⟩
        = str2cp "Expecting property name: line 1 column 3 (char 2)" := by
  refine ⟨?_, rfl, rfl⟩
  intro e
  refine ⟨rfl, ?_, ?_⟩
  · rw [JSONDecodeError.lineno, linecolGo_fst]; omega
  · rw [JSONDecodeError.colno, linecolGo_snd]
    by_cases hm : 10 ∈ e.doc.take e.pos
    · rw [if_pos hm]
    · rw [if_neg hm]
      have hall := all_not_nl _ (fun hx => hm (List.mem_reverse.mp hx))
      rw [takeWhile_of_all _ _ hall]
      simp
      omega

/-- Claim C3 counterexample: the failure on the documented input carries
the reason `Expecting property name`, not the claimed wording
`Expecting property name enclosed in double quotes`. -/
theorem property_name_wording_counterexample :
    loads (str2cp "\x7b 1.2:3.4\x7d") none false noDecKw
      = .error (.jsonError ⟨msgPropName, str2cp "\x7b 1.2:3.4\x7d", 2⟩)
    ∧ msgPropName ≠ str2cp "Expecting property name enclosed in double quotes"
    ∧ JSONDecodeError.errtext ⟨msgPropName, str2cp "\x7b 1.2:3.4\x7d", 2⟩
      ≠ str2cp "Expecting property name enclosed in double quotes: line 1 column 3 (char 2)" :=
  ⟨rfl, by decide, by decide⟩

/-! ### The cycle guard: circular failures and acyclic success -/

/-- Raising the fuel does not change a result other than fuel
exhaustion. -/
theorem enc_mono (heap : List PyObj) : ∀ f : Nat,
    (∀ (a : List Nat) (i g : Nat), f ≤ g →
      encG heap f a i ≠ .error .fuelOut → encG heap g a i = encG heap f a i)
    ∧ (∀ (a ids : List Nat) (g : Nat), f ≤ g →
      encGL heap f a ids ≠ .error .fuelOut → encGL heap g a ids = encGL heap f a ids) := by
  intro f
  induction f with
  | zero =>
      constructor
      · intro a i g _ hne; exact absurd rfl hne
      · intro a ids g _ hne; exact absurd rfl hne
  | succ f ih =>
      constructor
      · intro a i g hg hne
        obtain ⟨g, rfl⟩ : ∃ g2, g = g2 + 1 := ⟨g - 1, by omega⟩
        have hgf : f ≤ g := by omega
        cases hobj : heapAt heap i with
        | leaf => simp [encG, hobj]
        | listy es =>
            by_cases hi : i ∈ a
            · simp [encG, hobj, hi]
            · rw [encG, encG]
              simp only [hobj, hi, if_neg]
              rw [encG, hobj] at hne
              simp only [hi, if_neg, ite_false] at hne
              have hne2 : encGL heap f (i :: a) es ≠ .error .fuelOut := by
                intro h; rw [h] at hne; exact hne rfl
              rw [ih.2 (i :: a) es g hgf hne2]
        | dicty fs =>
            by_cases hi : i ∈ a
            · simp [encG, hobj, hi]
            · rw [encG, encG]
              simp only [hobj, hi, if_neg]
              rw [encG, hobj] at hne
              simp only [hi, if_neg, ite_false] at hne
              have hne2 : encGL heap f (i :: a) (fs.map Prod.snd) ≠ .error .fuelOut := by
                intro h; rw [h] at hne; exact hne rfl
              rw [ih.2 (i :: a) (fs.map Prod.snd) g hgf hne2]
      · intro a ids g hg hne
        obtain ⟨g, rfl⟩ : ∃ g2, g = g2 + 1 := ⟨g - 1, by omega⟩
        have hgf : f ≤ g := by omega
        cases ids with
        | nil => simp [encGL]
        | cons j t =>
            rw [encGL] at hne ⊢
            rw [encGL]
            cases hj : encG heap f a j with
            | error e =>
                have he : e ≠ CErr.fuelOut := by
                  intro h; subst h; rw [hj] at hne; exact hne rfl
                have hne2 : encG heap f a j ≠ .error .fuelOut := by
                  rw [hj]; intro h; exact he (by injection h)
                rw [ih.1 a j g hgf hne2, hj]
            | ok s =>
                have hne2 : encG heap f a j ≠ .error .fuelOut := by
                  rw [hj]; intro h; cases h
                rw [ih.1 a j g hgf hne2, hj]
                rw [hj] at hne
                cases ht : encGL heap f a t with
                | error e2 =>
                    have he2 : e2 ≠ CErr.fuelOut := by
                      intro h; subst h; rw [ht] at hne; exact hne rfl
                    have hne3 : encGL heap f a t ≠ .error .fuelOut := by
                      rw [ht]; intro h; exact he2 (by injection h)
                    rw [ih.2 a t g hgf hne3, ht]
                | ok s2 =>
                    have hne3 : encGL heap f a t ≠ .error .fuelOut := by
                      rw [ht]; intro h; cases h
                    rw [ih.2 a t g hgf hne3, ht]

/-- A walk that returns cannot reach any container still held in the
guard: its identity would have been found on the active path. -/
theorem enc_ok_no_reach (heap : List PyObj) : ∀ f : Nat,
    (∀ (a : List Nat) (i : Nat) (r : PyStr), encG heap f a i = .ok r →
      ∀ m ∈ a, isCont heap m = true → ¬ Reach heap i m)
    ∧ (∀ (a ids : List Nat) (r : PyStr), encGL heap f a ids = .ok r →
      ∀ j ∈ ids, ∀ m ∈ a, isCont heap m = true → ¬ Reach heap j m) := by
  intro f
  induction f with
  | zero =>
      constructor
      · intro a i r h; cases h
      · intro a ids r h; cases h
  | succ f ih =>
      constructor
      · intro a i r hok m hm hcont hreach
        cases hobj : heapAt heap i with
        | leaf =>
            cases hreach with
            | refl =>
                rw [isCont, hobj] at hcont
                exact absurd hcont (by simp)
            | step _ c _ hc hr =>
                rw [hobj] at hc
                exact absurd hc (List.not_mem_nil c)
        | listy es =>
            simp only [encG, hobj] at hok
            by_cases hi : i ∈ a
            · rw [if_pos hi] at hok; cases hok
            · rw [if_neg hi] at hok
              cases hgl : encGL heap f (i :: a) es with
              | error e => rw [hgl] at hok; cases hok
              | ok s =>
                  cases hreach with
                  | refl => exact hi hm
                  | step _ c _ hc hr =>
                      rw [hobj] at hc
                      exact ih.2 (i :: a) es s hgl c hc m
                        (List.mem_cons_of_mem i hm) hcont hr
        | dicty fs =>
            simp only [encG, hobj] at hok
            by_cases hi : i ∈ a
            · rw [if_pos hi] at hok; cases hok
            · rw [if_neg hi] at hok
              cases hgl : encGL heap f (i :: a) (fs.map Prod.snd) with
              | error e => rw [hgl] at hok; cases hok
              | ok s =>
                  cases hreach with
                  | refl => exact hi hm
                  | step _ c _ hc hr =>
                      rw [hobj] at hc
                      exact ih.2 (i :: a) (fs.map Prod.snd) s hgl c hc m
                        (List.mem_cons_of_mem i hm) hcont hr
      · intro a ids r hok j hj m hm hcont hreach
        cases ids with
        | nil => exact absurd hj (List.not_mem_nil j)
        | cons x t =>
            rw [encGL] at hok
            cases hx : encG heap f a x with
            | error e => rw [hx] at hok; cases hok
            | ok s =>
                rw [hx] at hok
                cases ht : encGL heap f a t with
                | error e => rw [ht] at hok; cases hok
                | ok s2 =>
                    rcases List.mem_cons.mp hj with rfl | hj2
                    · exact ih.1 a j s hx m hm hcont hreach
                    · exact ih.2 a t s2 ht j hj2 m hm hcont hreach

/-- Some fuel always avoids fuel exhaustion: the guard caps the active
path by the heap size, so every walk is finite. -/
theorem enc_ex_fuel (heap : List PyObj) : ∀ (d : Nat) (a : List Nat),
    a.Nodup → (∀ x ∈ a, x < heap.length) → heap.length ≤ a.length + d →
    (∀ i : Nat, ∃ f, encG heap f a i ≠ .error .fuelOut)
    ∧ (∀ ids : List Nat, ∃ f, encGL heap f a ids ≠ .error .fuelOut) := by
  intro d
  induction d with
  | zero =>
      intro a hnd hbound hlen
      have hfull : ∀ x, x < heap.length → x ∈ a := by
        intro x hx
        by_contra hxa
        have hnd2 : (x :: a).Nodup := List.nodup_cons.mpr ⟨hxa, hnd⟩
        have hsub : (x :: a).toFinset ⊆ Finset.range heap.length := by
          intro y hy
          rw [List.mem_toFinset] at hy
          rw [Finset.mem_range]
          rcases List.mem_cons.mp hy with rfl | hy2
          · exact hx
          · exact hbound y hy2
        have hcard := Finset.card_le_card hsub
        rw [List.toFinset_card_of_nodup hnd2, Finset.card_range] at hcard
        simp at hcard
        omega
      have hG : ∀ i : Nat, ∃ f, encG heap f a i ≠ .error .fuelOut := by
        intro i
        refine ⟨1, ?_⟩
        cases hobj : heapAt heap i with
        | leaf => simp [encG, hobj]
        | listy es =>
            have hi : i ∈ a := by
              apply hfull
              by_contra hge
              rw [heapAt, List.getD_eq_default _ _ (by omega)] at hobj
              cases hobj
            simp [encG, hobj, hi]
        | dicty fs =>
            have hi : i ∈ a := by
              apply hfull
              by_contra hge
              rw [heapAt, List.getD_eq_default _ _ (by omega)] at hobj
              cases hobj
            simp [encG, hobj, hi]
      refine ⟨hG, ?_⟩
      intro ids
      induction ids with
      | nil => exact ⟨1, by simp [encGL]⟩
      | cons j t iht =>
          obtain ⟨f1, h1⟩ := hG j
          obtain ⟨f2, h2⟩ := iht
          refine ⟨max f1 f2 + 1, ?_⟩
          rw [encGL]
          rw [(enc_mono heap f1).1 a j (max f1 f2) (Nat.le_max_left f1 f2) h1]
          cases hj : encG heap f1 a j with
          | error e =>
              intro hcl
              have : e = CErr.fuelOut := by injection hcl
              subst this
              exact h1 hj
          | ok s =>
              rw [(enc_mono heap f2).2 a t (max f1 f2) (Nat.le_max_right f1 f2) h2]
              cases ht : encGL heap f2 a t with
              | error e =>
                  intro hcl
                  have : e = CErr.fuelOut := by injection hcl
                  subst this
                  exact h2 ht
              | ok s2 => simp
  | succ d ihd =>
      intro a hnd hbound hlen
      have hG : ∀ i : Nat, ∃ f, encG heap f a i ≠ .error .fuelOut := by
        intro i
        cases hobj : heapAt heap i with
        | leaf => exact ⟨1, by simp [encG, hobj]⟩
        | listy es =>
            by_cases hi : i ∈ a
            · exact ⟨1, by simp [encG, hobj, hi]⟩
            · have hilt : i < heap.length := by
                by_contra hge
                rw [heapAt, List.getD_eq_default _ _ (by omega)] at hobj
                cases hobj
              have hout := (ihd (i :: a) (List.nodup_cons.mpr ⟨hi, hnd⟩)
                (by intro x hx; rcases List.mem_cons.mp hx with rfl | hx2
                    · exact hilt
                    · exact hbound x hx2)
                (by simp; omega)).2 es
              obtain ⟨f, hf⟩ := hout
              refine ⟨f + 1, ?_⟩
              simp only [encG, hobj, if_neg hi]
              intro hcl
              cases hgl : encGL heap f (i :: a) es with
              | error e =>
                  rw [hgl] at hcl
                  have : e = CErr.fuelOut := by injection hcl
                  subst this
                  exact hf hgl
              | ok s => rw [hgl] at hcl; cases hcl
        | dicty fs =>
            by_cases hi : i ∈ a
            · exact ⟨1, by simp [encG, hobj, hi]⟩
            · have hilt : i < heap.length := by
                by_contra hge
                rw [heapAt, List.getD_eq_default _ _ (by omega)] at hobj
                cases hobj
              have hout := (ihd (i :: a) (List.nodup_cons.mpr ⟨hi, hnd⟩)
                (by intro x hx; rcases List.mem_cons.mp hx with rfl | hx2
                    · exact hilt
                    · exact hbound x hx2)
                (by simp; omega)).2 (fs.map Prod.snd)
              obtain ⟨f, hf⟩ := hout
              refine ⟨f + 1, ?_⟩
              simp only [encG, hobj, if_neg hi]
              intro hcl
              cases hgl : encGL heap f (i :: a) (fs.map Prod.snd) with
              | error e =>
                  rw [hgl] at hcl
                  have : e = CErr.fuelOut := by injection hcl
                  subst this
                  exact hf hgl
              | ok s => rw [hgl] at hcl; cases hcl
      refine ⟨hG, ?_⟩
      intro ids
      induction ids with
      | nil => exact ⟨1, by simp [encGL]⟩
      | cons j t iht =>
          obtain ⟨f1, h1⟩ := hG j
          obtain ⟨f2, h2⟩ := iht
          refine ⟨max f1 f2 + 1, ?_⟩
          rw [encGL]
          rw [(enc_mono heap f1).1 a j (max f1 f2) (Nat.le_max_left f1 f2) h1]
          cases hj : encG heap f1 a j with
          | error e =>
              intro hcl
              have : e = CErr.fuelOut := by injection hcl
              subst this
              exact h1 hj
          | ok s =>
              rw [(enc_mono heap f2).2 a t (max f1 f2) (Nat.le_max_right f1 f2) h2]
              cases ht : encGL heap f2 a t with
              | error e =>
                  intro hcl
                  have : e = CErr.fuelOut := by injection hcl
                  subst this
                  exact h2 ht
              | ok s2 => simp

/-- Children that each encode at some fuel encode in sequence at a common
fuel. -/
theorem encGL_ok_of_all (heap : List PyObj) (a : List Nat) :
    ∀ ids : List Nat, (∀ j ∈ ids, ∃ f out, encG heap f a j = .ok out) →
    ∃ f out, encGL heap f a ids = .ok out := by
  intro ids
  induction ids with
  | nil => exact fun _ => ⟨1, [], by simp [encGL]⟩
  | cons j t ih =>
      intro hall
      obtain ⟨f1, o1, h1⟩ := hall j (List.mem_cons_self j t)
      obtain ⟨f2, o2, h2⟩ := ih (fun x hx => hall x (List.mem_cons_of_mem j hx))
      refine ⟨max f1 f2 + 1, o1 ++ o2, ?_⟩
      rw [encGL]
      rw [(enc_mono heap f1).1 a j (max f1 f2) (Nat.le_max_left f1 f2)
        (by rw [h1]; intro h; cases h), h1]
      rw [(enc_mono heap f2).2 a t (max f1 f2) (Nat.le_max_right f1 f2)
        (by rw [h2]; intro h; cases h), h2]

/-- Under a rank function that drops along container edges (an acyclic
graph, diamonds allowed), the guarded walk succeeds. -/
theorem encG_ok_of_rank (heap : List PyObj) (rank : Nat → Nat)
    (hrank : ∀ i x, x ∈ childIds (heapAt heap i) → rank x < rank i) :
    ∀ (n : Nat) (i : Nat) (a : List Nat), rank i ≤ n →
    (∀ m ∈ a, rank i < rank m) →
    ∃ f out, encG heap f a i = .ok out := by
  intro n
  induction n with
  | zero =>
      intro i a hle hact
      cases hobj : heapAt heap i with
      | leaf => exact ⟨1, str2cp "null", by simp [encG, hobj]⟩
      | listy es =>
          have hno : es = [] := by
            cases es with
            | nil => rfl
            | cons c t =>
                have := hrank i c (by rw [hobj]; exact List.mem_cons_self c t)
                omega
          subst hno
          have hi : i ∉ a := fun hm => absurd (hact i hm) (by omega)
          exact ⟨2, 91 :: [] ++ [93], by simp [encG, encGL, hobj, hi, Except.map]⟩
      | dicty fs =>
          have hno : fs.map Prod.snd = [] := by
            cases hfs : fs.map Prod.snd with
            | nil => rfl
            | cons c t =>
                have := hrank i c (by rw [hobj, childIds, hfs]; exact List.mem_cons_self c t)
                omega
          have hi : i ∉ a := fun hm => absurd (hact i hm) (by omega)
          exact ⟨2, 123 :: [] ++ [125], by simp [encG, encGL, hobj, hno, hi, Except.map]⟩
  | succ n ihn =>
      intro i a hle hact
      cases hobj : heapAt heap i with
      | leaf => exact ⟨1, str2cp "null", by simp [encG, hobj]⟩
      | listy es =>
          have hi : i ∉ a := fun hm => absurd (hact i hm) (by omega)
          have hch : ∀ j ∈ es, ∃ f out, encG heap f (i :: a) j = .ok out := by
            intro j hj
            have hjr : rank j < rank i := hrank i j (by rw [hobj]; exact hj)
            refine ihn j (i :: a) (by omega) ?_
            intro m hm
            rcases List.mem_cons.mp hm with rfl | hm2
            · exact hjr
            · exact lt_trans hjr (hact m hm2)
          obtain ⟨f, out, hf⟩ := encGL_ok_of_all heap (i :: a) es hch
          exact ⟨f + 1, 91 :: out ++ [93], by simp [encG, hobj, hi, hf, Except.map]⟩
      | dicty fs =>
          have hi : i ∉ a := fun hm => absurd (hact i hm) (by omega)
          have hch : ∀ j ∈ fs.map Prod.snd, ∃ f out, encG heap f (i :: a) j = .ok out := by
            intro j hj
            have hjr : rank j < rank i := hrank i j (by rw [hobj]; exact hj)
            refine ihn j (i :: a) (by omega) ?_
            intro m hm
            rcases List.mem_cons.mp hm with rfl | hm2
            · exact hjr
            · exact lt_trans hjr (hact m hm2)
          obtain ⟨f, out, hf⟩ := encGL_ok_of_all heap (i :: a) (fs.map Prod.snd) hch
          exact ⟨f + 1, 123 :: out ++ [125], by simp [encG, hobj, hi, hf, Except.map]⟩

/-- Claim C7: a container that directly or transitively contains itself is
never encoded; at adequate fuel the failure is precisely the circular
reference error.  Any graph with a rank dropping along edges (so any
acyclic graph, shared diamonds included) encodes successfully, because an
identity is held in the guard only while its container is being traversed
and released on completion. -/
theorem cycle_guard_detects_cycles :
    (∀ (heap : List PyObj) (root c : Nat),
      isCont heap root = true → c ∈ childIds (heapAt heap root) → Reach heap c root →
      (∀ (f : Nat) (out : PyStr), encG heap f [] root ≠ .ok out)
      ∧ ∃ f0, ∀ f, f0 ≤ f → encG heap f [] root = .error .circular)
    ∧ (∀ (heap : List PyObj) (rank : Nat → Nat) (root : Nat),
      (∀ i x, x ∈ childIds (heapAt heap i) → rank x < rank i) →
      ∃ f0, ∀ f, f0 ≤ f → ∃ out, encG heap f [] root = .ok out) := by
  constructor
  · intro heap root c hcont hc hreach
    have hnever : ∀ (f : Nat) (out : PyStr), encG heap f [] root ≠ .ok out := by
      intro f out hok
      cases f with
      | zero => cases hok
      | succ f =>
          cases hobj : heapAt heap root with
          | leaf => rw [isCont, hobj] at hcont; simp at hcont
          | listy es =>
              simp only [encG, hobj] at hok
              rw [if_neg (List.not_mem_nil root)] at hok
              cases hgl : encGL heap f [root] es with
              | error e => rw [hgl] at hok; cases hok
              | ok s =>
                  rw [hobj] at hc
                  exact (enc_ok_no_reach heap f).2 [root] es s hgl c hc root
                    (List.mem_cons_self root []) hcont hreach
          | dicty fs =>
              simp only [encG, hobj] at hok
              rw [if_neg (List.not_mem_nil root)] at hok
              cases hgl : encGL heap f [root] (fs.map Prod.snd) with
              | error e => rw [hgl] at hok; cases hok
              | ok s =>
                  rw [hobj] at hc
                  exact (enc_ok_no_reach heap f).2 [root] (fs.map Prod.snd) s hgl c hc
                    root (List.mem_cons_self root []) hcont hreach
    refine ⟨hnever, ?_⟩
    obtain ⟨f0, hf0⟩ := (enc_ex_fuel heap heap.length []
      (List.nodup_nil) (by simp) (by simp)).1 root
    refine ⟨f0, fun f hf => ?_⟩
    rw [(enc_mono heap f0).1 [] root f hf hf0]
    cases hres : encG heap f0 [] root with
    | ok out => exact absurd hres (hnever f0 out)
    | error e =>
        cases e with
        | circular => rfl
        | fuelOut => exact absurd hres hf0
  · intro heap rank root hrank
    obtain ⟨f0, out, hf⟩ := encG_ok_of_rank heap rank hrank (rank root) root []
      le_rfl (by simp)
    refine ⟨f0, fun f hf2 => ?_⟩
    rw [(enc_mono heap f0).1 [] root f hf2 (by rw [hf]; intro h; cases h)]
    exact ⟨out, hf⟩

/-- Claim C7 witness: the one-node self-containing list errors with the
circular failure, and a diamond heap sharing one grandchild along two
paths encodes successfully. -/
theorem cycle_guard_detects_cycles_witness :
    ((∀ (f : Nat) (out : PyStr), encG [PyObj.listy [0]] f [] 0 ≠ .ok out)
      ∧ ∃ f0, ∀ f, f0 ≤ f → encG [PyObj.listy [0]] f [] 0 = .error .circular)
    ∧ ∃ f0, ∀ f, f0 ≤ f → ∃ out,
        encG [PyObj.listy [1, 2], PyObj.listy [3], PyObj.listy [3], PyObj.leaf]
          f [] 0 = .ok out := by
  constructor
  · exact cycle_guard_detects_cycles.1 [PyObj.listy [0]] 0 0 (by decide)
      (by simp [heapAt, childIds]) (Reach.refl 0)
  · refine cycle_guard_detects_cycles.2
      [PyObj.listy [1, 2], PyObj.listy [3], PyObj.listy [3], PyObj.leaf]
      (fun i => 4 - i) 0 ?_
    intro i x hx
    match i with
    | 0 => simp [heapAt, childIds] at hx; rcases hx with rfl | rfl <;> decide
    | 1 => simp [heapAt, childIds] at hx; subst hx; decide
    | 2 => simp [heapAt, childIds] at hx; subst hx; decide
    | 3 => simp [heapAt, childIds] at hx
    | n + 4 =>
        rw [heapAt, List.getD_eq_default _ _ (by simp)] at hx
        simp [childIds] at hx


/-! ### C1: the default-configuration round-trip -/

/- Stage A: decimal digit lemmas -/

theorem natDigsF_acc : ∀ (f n : Nat) (acc : List Nat),
    natDigsF f n acc = natDigsF f n [] ++ acc := by
  intro f
  induction f with
  | zero => intro n acc; simp [natDigsF]
  | succ f ih =>
      intro n acc
      by_cases h : n < 10
      · simp [natDigsF, h]
      · rw [natDigsF, if_neg h, natDigsF, if_neg h, ih _ ((48 + n % 10) :: acc),
          ih _ [48 + n % 10]]
        simp

theorem natDigsF_irrel : ∀ (n f g : Nat), n < f → n < g →
    natDigsF f n [] = natDigsF g n [] := by
  intro n
  induction n using Nat.strong_induction_on with
  | _ n ih =>
      intro f g hf hg
      obtain ⟨f, rfl⟩ : ∃ f2, f = f2 + 1 := ⟨f - 1, by omega⟩
      obtain ⟨g, rfl⟩ : ∃ g2, g = g2 + 1 := ⟨g - 1, by omega⟩
      by_cases h : n < 10
      · simp [natDigsF, h]
      · rw [natDigsF, if_neg h, natDigsF, if_neg h,
          natDigsF_acc f, natDigsF_acc g,
          ih (n / 10) (by omega) f g (by omega) (by omega)]

theorem natDigs_unfold (n : Nat) :
    natDigs n = if n < 10 then [48 + n % 10]
      else natDigs (n / 10) ++ [48 + n % 10] := by
  by_cases h : n < 10
  · simp [natDigs, natDigsF, h]
  · rw [natDigs, natDigs, natDigsF, if_neg h, if_neg h,
      natDigsF_acc n, natDigsF_irrel (n / 10) n (n / 10 + 1) (by omega) (by omega)]

theorem natDigs_digits (n : Nat) : ∀ c ∈ natDigs n, digitCp c = true := by
  induction n using Nat.strong_induction_on with
  | _ n ih =>
      intro c hc
      rw [natDigs_unfold] at hc
      by_cases h : n < 10
      · rw [if_pos h] at hc
        simp at hc
        subst hc
        simp [digitCp]
        omega
      · rw [if_neg h] at hc
        rcases List.mem_append.mp hc with h2 | h2
        · exact ih (n / 10) (by omega) c h2
        · simp at h2
          subst h2
          simp [digitCp]
          omega

theorem natDigs_cons (n : Nat) :
    ∃ c t, natDigs n = c :: t ∧ digitCp c = true := by
  induction n using Nat.strong_induction_on with
  | _ n ih =>
      rw [natDigs_unfold]
      by_cases h : n < 10
      · exact ⟨48 + n % 10, [], by simp [h], by simp [digitCp]; omega⟩
      · obtain ⟨c, t, hct, hd⟩ := ih (n / 10) (by omega)
        rw [if_neg h, hct]
        exact ⟨c, t ++ [48 + n % 10], rfl, hd⟩

theorem natDigs_head_ne_zero (n : Nat) (hn : n ≠ 0) :
    ∃ c t, natDigs n = c :: t ∧ digitCp c = true ∧ c ≠ 48 := by
  induction n using Nat.strong_induction_on with
  | _ n ih =>
      rw [natDigs_unfold]
      by_cases h : n < 10
      · refine ⟨48 + n % 10, [], by simp [h], by simp [digitCp]; omega, by omega⟩
      · obtain ⟨c, t, hct, hd, hz⟩ := ih (n / 10) (by omega) (by omega)
        rw [if_neg h, hct]
        exact ⟨c, t ++ [48 + n % 10], rfl, hd, hz⟩

theorem digitSpan_stop (K : PyStr)
    (hK : K = [] ∨ ∃ c t, K = c :: t ∧ digitCp c = false) :
    digitSpan K = ([], K) := by
  rcases hK with rfl | ⟨c, t, rfl, hc⟩
  · rfl
  · simp [digitSpan, hc]

theorem digitSpan_run : ∀ (ds K : PyStr), (∀ c ∈ ds, digitCp c = true) →
    digitSpan K = ([], K) → digitSpan (ds ++ K) = (ds, K) := by
  intro ds
  induction ds with
  | nil => intro K _ hK; simpa using hK
  | cons c t ih =>
      intro K hall hK
      have hc : digitCp c = true := hall c (List.mem_cons_self c t)
      simp only [List.cons_append, digitSpan, hc, if_pos]
      rw [show t.append K = t ++ K from rfl,
        ih K (fun x hx => hall x (List.mem_cons_of_mem c hx)) hK]

theorem digitsNat_snoc (ds : List Nat) (d : Nat) :
    digitsNat (ds ++ [d]) = digitsNat ds * 10 + (d - 48) := by
  simp [digitsNat, List.foldl_append]

theorem digitsNat_natDigs (n : Nat) : digitsNat (natDigs n) = n := by
  induction n using Nat.strong_induction_on with
  | _ n ih =>
      rw [natDigs_unfold]
      by_cases h : n < 10
      · rw [if_pos h]
        simp [digitsNat]
        omega
      · rw [if_neg h, digitsNat_snoc, ih (n / 10) (by omega)]
        omega

/- Stage B: number literal round-trip -/

theorem numBoundary_span (K : PyStr) (h : numBoundary K = true) :
    digitSpan K = ([], K) := by
  cases K with
  | nil => rfl
  | cons c t =>
      simp only [numBoundary, Bool.not_eq_true', Bool.or_eq_false_iff] at h
      exact digitSpan_stop _ (Or.inr ⟨c, t, rfl, h.1.1.1⟩)

theorem numBoundary_head (c : Nat) (t : PyStr) (h : numBoundary (c :: t) = true) :
    digitCp c = false ∧ c ≠ 46 ∧ c ≠ 101 ∧ c ≠ 69 := by
  simp only [numBoundary, Bool.not_eq_true', Bool.or_eq_false_iff,
    beq_eq_false_iff_ne] at h
  exact ⟨h.1.1.1, h.1.1.2, h.1.2, h.2⟩

theorem matchFrac_boundary (K : PyStr) (h : numBoundary K = true) :
    matchFrac K = ([], K) := by
  cases K with
  | nil => rfl
  | cons c t =>
      obtain ⟨-, h46, -, -⟩ := numBoundary_head c t h
      simp [matchFrac, h46]

theorem matchExpPart_boundary (K : PyStr) (h : numBoundary K = true) :
    matchExpPart K = (none, K) := by
  match K with
  | [] => rfl
  | [c] =>
      obtain ⟨-, -, h101, h69⟩ := numBoundary_head c [] h
      have hb : (c == 101 || c == 69) = false := by simp [h101, h69]
      simp [matchExpPart, hb]
  | c :: c2 :: t =>
      obtain ⟨-, -, h101, h69⟩ := numBoundary_head c (c2 :: t) h
      have hb : (c == 101 || c == 69) = false := by simp [h101, h69]
      simp [matchExpPart, hb]

theorem buildNum_boundary (b : Bool) (ip : PyStr) (K : PyStr)
    (h : numBoundary K = true) :
    buildNum b ip K = (⟨b, ip, [], none⟩, K) := by
  rw [buildNum, matchFrac_boundary K h]
  simp [matchExpPart_boundary K h]

theorem digitCp_ne (c : Nat) (hc : digitCp c = true) :
    c ≠ 45 ∧ c ≠ 46 ∧ c ≠ 101 ∧ c ≠ 69 ∧ 48 ≤ c ∧ c ≤ 57 := by
  simp only [digitCp, Bool.and_eq_true, decide_eq_true_eq] at hc
  omega

theorem matchNumber_digitsHead (b : Bool) (n : Nat) (c : Nat) (t K : PyStr)
    (hct : natDigs n = c :: t) (hK : numBoundary K = true) :
    (if c = 48 then some (buildNum b [48] (t ++ K))
     else if digitCp c then
       some (buildNum b (c :: (digitSpan (t ++ K)).1) (digitSpan (t ++ K)).2)
     else (none : Option (NumLit × PyStr)))
      = some (⟨b, natDigs n, [], none⟩, K) := by
  by_cases hn : n = 0
  · subst hn
    rw [show natDigs 0 = [48] from rfl] at hct ⊢
    injection hct with h1 h2
    subst h1; subst h2
    rw [if_pos rfl]
    simp only [List.nil_append]
    rw [buildNum_boundary _ _ _ hK]
  · obtain ⟨c2, t2, hct2, hd2, h482⟩ := natDigs_head_ne_zero n hn
    rw [hct] at hct2
    injection hct2 with h1 h2
    subst h1; subst h2
    rw [if_neg h482, if_pos hd2]
    rw [digitSpan_run t K
      (fun x hx => natDigs_digits n x (by rw [hct]; exact List.mem_cons_of_mem c hx))
      (numBoundary_span K hK)]
    rw [buildNum_boundary _ _ _ hK, hct]

theorem matchNumber_minus (X : PyStr) :
    matchNumber (45 :: X)
      = (match X with
         | c :: r1 =>
             if c = 48 then some (buildNum true [48] r1)
             else if digitCp c then
               some (buildNum true (c :: (digitSpan r1).1) (digitSpan r1).2)
             else (none : Option (NumLit × PyStr))
         | [] => none) := rfl

theorem matchNumber_nonminus (c : Nat) (X : PyStr) (hc : c ≠ 45) :
    matchNumber (c :: X)
      = (if c = 48 then some (buildNum false [48] X)
         else if digitCp c then
           some (buildNum false (c :: (digitSpan X).1) (digitSpan X).2)
         else none) := by
  rw [matchNumber]
  simp only [if_neg hc]

theorem matchNumber_intDec (i : Int) (K : PyStr) (hK : numBoundary K = true) :
    matchNumber (intDec i ++ K)
      = some (⟨decide (i < 0), natDigs i.natAbs, [], none⟩, K) := by
  obtain ⟨c0, t0, h0, hd0⟩ := natDigs_cons i.natAbs
  by_cases hi : i < 0
  · have key := matchNumber_digitsHead true i.natAbs c0 t0 K h0 hK
    rw [h0] at key
    rw [show intDec i = 45 :: natDigs i.natAbs from by rw [intDec, if_pos hi]; rfl,
      show (45 :: natDigs i.natAbs) ++ K = 45 :: (natDigs i.natAbs ++ K) from rfl,
      matchNumber_minus, h0, List.cons_append, decide_eq_true hi]
    exact key
  · have key := matchNumber_digitsHead false i.natAbs c0 t0 K h0 hK
    rw [h0] at key
    rw [show intDec i = natDigs i.natAbs from by rw [intDec, if_neg hi]; rfl,
      h0, List.cons_append,
      matchNumber_nonminus c0 (t0 ++ K) (digitCp_ne c0 hd0).1, decide_eq_false hi]
    exact key

theorem matchNumber_digitsHeadG (b : Bool) (n : Nat) (c : Nat) (t L : PyStr)
    (hct : natDigs n = c :: t) (hL : digitSpan L = ([], L)) :
    (if c = 48 then some (buildNum b [48] (t ++ L))
     else if digitCp c then
       some (buildNum b (c :: (digitSpan (t ++ L)).1) (digitSpan (t ++ L)).2)
     else (none : Option (NumLit × PyStr)))
      = some (buildNum b (natDigs n) L) := by
  by_cases hn : n = 0
  · subst hn
    rw [show natDigs 0 = [48] from rfl] at hct ⊢
    injection hct with h1 h2
    subst h1; subst h2
    rw [if_pos rfl]
    simp only [List.nil_append]
  · obtain ⟨c2, t2, hct2, hd2, h482⟩ := natDigs_head_ne_zero n hn
    rw [hct] at hct2
    injection hct2 with h1 h2
    subst h1; subst h2
    rw [if_neg h482, if_pos hd2]
    rw [digitSpan_run t L
      (fun x hx => natDigs_digits n x (by rw [hct]; exact List.mem_cons_of_mem c hx))
      hL]
    rw [hct]

theorem expDigits_value (neg : Bool) (n : Nat) (K orig : PyStr)
    (hK : numBoundary K = true) :
    expDigits neg (natDigs n ++ K) orig
      = (some ((if neg then (-1 : Int) else 1) * (n : Int)), K) := by
  obtain ⟨c0, t0, h0, hd0⟩ := natDigs_cons n
  rw [expDigits, digitSpan_run (natDigs n) K (natDigs_digits n) (numBoundary_span K hK)]
  rw [h0]
  simp only []
  rw [← h0, digitsNat_natDigs]

theorem buildNum_exp (b : Bool) (ip : PyStr) (e : Int) (K : PyStr)
    (hK : numBoundary K = true) :
    buildNum b ip (101 :: (intDec e ++ K)) = (⟨b, ip, [], some e⟩, K) := by
  rw [buildNum]
  rw [show matchFrac (101 :: (intDec e ++ K)) = ([], 101 :: (intDec e ++ K)) from by
    rw [matchFrac]; simp]
  simp only []
  by_cases he : e < 0
  · rw [show intDec e = 45 :: natDigs e.natAbs from by rw [intDec, if_pos he]; rfl]
    rw [show (45 :: natDigs e.natAbs) ++ K = 45 :: (natDigs e.natAbs ++ K) from rfl,
      matchExpPart]
    simp only [show ((101 : Nat) == 101 || (101 : Nat) == 69) = true from rfl, if_pos,
      show ¬((45 : Nat) = 43) from by omega, if_neg, if_pos rfl]
    rw [expDigits_value true e.natAbs K _ hK]
    have hval : (-1 : Int) * (e.natAbs : Int) = e := by omega
    have habs : |e| = -e := abs_of_neg he
    simp [hval, habs]
  · rw [show intDec e = natDigs e.natAbs from by rw [intDec, if_neg he]; rfl]
    obtain ⟨c0, t0, h0, hd0⟩ := natDigs_cons e.natAbs
    obtain ⟨h45, -⟩ := digitCp_ne c0 hd0
    have h43 : c0 ≠ 43 := by
      obtain ⟨-, -, -, -, h48, -⟩ := digitCp_ne c0 hd0
      omega
    rw [h0, List.cons_append, matchExpPart]
    simp only [show ((101 : Nat) == 101 || (101 : Nat) == 69) = true from rfl, if_pos,
      if_neg h43, if_neg h45]
    rw [← List.cons_append, ← h0, expDigits_value false e.natAbs K _ hK]
    have hval : (1 : Int) * (e.natAbs : Int) = e := by omega
    have habs : |e| = e := abs_of_nonneg (by omega)
    simp [hval, habs]

theorem matchNumber_floatRepr (m e : Int) (K : PyStr) (hK : numBoundary K = true) :
    matchNumber (floatRepr m e ++ K)
      = some (⟨decide (m < 0), natDigs m.natAbs, [], some e⟩, K) := by
  obtain ⟨c0, t0, h0, hd0⟩ := natDigs_cons m.natAbs
  have hfr : floatRepr m e ++ K = intDec m ++ (101 :: (intDec e ++ K)) := by
    rw [floatRepr]
    simp
  have hL : digitSpan (101 :: (intDec e ++ K)) = ([], 101 :: (intDec e ++ K)) :=
    digitSpan_stop _ (Or.inr ⟨101, _, rfl, by simp [digitCp]⟩)
  by_cases hm : m < 0
  · have key := matchNumber_digitsHeadG true m.natAbs c0 t0
      (101 :: (intDec e ++ K)) h0 hL
    rw [h0] at key
    rw [hfr,
      show intDec m = 45 :: natDigs m.natAbs from by rw [intDec, if_pos hm]; rfl,
      show (45 :: natDigs m.natAbs) ++ (101 :: (intDec e ++ K))
        = 45 :: (natDigs m.natAbs ++ (101 :: (intDec e ++ K))) from rfl,
      matchNumber_minus, h0, List.cons_append, decide_eq_true hm]
    rw [buildNum_exp true (c0 :: t0) e K hK] at key
    exact key
  · have key := matchNumber_digitsHeadG false m.natAbs c0 t0
      (101 :: (intDec e ++ K)) h0 hL
    rw [h0] at key
    rw [hfr,
      show intDec m = natDigs m.natAbs from by rw [intDec, if_neg hm]; rfl,
      h0, List.cons_append,
      matchNumber_nonminus c0 (t0 ++ (101 :: (intDec e ++ K))) (digitCp_ne c0 hd0).1,
      decide_eq_false hm]
    rw [buildNum_exp false (c0 :: t0) e K hK] at key
    exact key

theorem canonDec_of_canonF (m e : Int) (h : canonF m e = true) :
    canonDec m e = (m, e) := by
  rw [canonF] at h
  rw [canonDec]
  by_cases hm : m = 0
  · rw [if_pos hm] at h ⊢
    have he : e = 0 := by simpa using h
    rw [hm, he]
  · rw [if_neg hm] at h ⊢
    have h10 : ¬(m % 10 = 0) := by simpa using h
    obtain ⟨k, hk⟩ : ∃ k, m.natAbs = k + 1 := ⟨m.natAbs - 1, by omega⟩
    rw [hk, stripZeros]
    rw [if_neg]
    simp [h10]

theorem numValue_int_lit (i : Int) :
    numValue none ⟨decide (i < 0), natDigs i.natAbs, [], none⟩ = .int i := by
  rw [numValue]
  simp only [List.isEmpty_nil, Option.isNone_none, Bool.and_self, if_pos]
  rw [digitsNat_natDigs, intSign]
  by_cases hi : i < 0
  · rw [if_pos (by simp [hi])]
    congr 1
    omega
  · rw [if_neg (by simp [hi])]
    congr 1
    omega

theorem numValue_float_lit (m e : Int) (h : canonF m e = true) :
    numValue none ⟨decide (m < 0), natDigs m.natAbs, [], some e⟩ = .float m e := by
  simp only [numValue, List.isEmpty_nil, Option.isNone_some, Bool.and_false,
    Bool.false_eq_true, if_false, List.append_nil, List.length_nil,
    Nat.cast_zero, sub_zero, Option.getD_some]
  rw [digitsNat_natDigs]
  have hm : intSign (decide (m < 0)) * (m.natAbs : Int) = m := by
    rw [intSign]
    by_cases hi : m < 0
    · rw [if_pos (by simp [hi])]
      omega
    · rw [if_neg (by simp [hi])]
      omega
  rw [hm, canonDec_of_canonF m e h]

theorem skipWsL_nonws (c : Nat) (t : PyStr) (h : isWsCp c = false) :
    skipWsL (c :: t) = c :: t := by
  rw [skipWsL, if_neg]
  simp [h]

theorem scanValue_num (d : JSONDecoder) (f : Nat) (c : Nat) (r : PyStr)
    (lit : NumLit) (r2 : PyStr)
    (hws : isWsCp c = false) (h34 : c ≠ 34) (h91 : c ≠ 91) (h123 : c ≠ 123)
    (h110 : c ≠ 110) (h116 : c ≠ 116) (h102 : c ≠ 102)
    (hmn : matchNumber (c :: r) = some (lit, r2)) :
    scanValue d (f + 1) (c :: r) = .ok (numValue d.parse_float lit, r2) := by
  rw [scanValue, skipWsL_nonws c r hws]
  simp only [if_neg h34, if_neg h91, if_neg h123, if_neg h110, if_neg h116,
    if_neg h102, hmn]

theorem hexv_hexDig (n : Nat) (h : n < 16) : hexv (hexDig n) = some n := by
  rw [hexDig]
  by_cases h10 : n < 10
  · rw [if_pos h10, hexv, if_pos (by simp <;> omega)]
    congr 1
    omega
  · rw [if_neg h10, hexv, if_neg (by simp <;> omega), if_pos (by simp <;> omega)]
    congr 1
    omega

theorem hex4_esc4 (x : Nat) (h : x < 65536) :
    hex4 (hexDig (x / 4096 % 16)) (hexDig (x / 256 % 16))
      (hexDig (x / 16 % 16)) (hexDig (x % 16)) = some x := by
  have e1 : hexv (hexDig (x / 4096 % 16)) = some (x / 4096 % 16) :=
    hexv_hexDig _ (by omega)
  have e2 : hexv (hexDig (x / 256 % 16)) = some (x / 256 % 16) :=
    hexv_hexDig _ (by omega)
  have e3 : hexv (hexDig (x / 16 % 16)) = some (x / 16 % 16) :=
    hexv_hexDig _ (by omega)
  have e4 : hexv (hexDig (x % 16)) = some (x % 16) :=
    hexv_hexDig _ (by omega)
  rw [hex4, e1, e2, e3, e4]
  show some _ = some x
  congr 1
  omega

theorem lowEscHead_esc4 (x : Nat) (hx : x < 65536) (R : PyStr) :
    lowEscHead (esc4 x ++ R) = (56320 ≤ x && x < 57344) := by
  rw [esc4]
  rw [show ([92, 117, hexDig (x / 4096 % 16), hexDig (x / 256 % 16),
        hexDig (x / 16 % 16), hexDig (x % 16)] : PyStr) ++ R
      = 92 :: 117 :: hexDig (x / 4096 % 16) :: hexDig (x / 256 % 16)
        :: hexDig (x / 16 % 16) :: hexDig (x % 16) :: R from rfl]
  rw [lowEscHead, hex4_esc4 x hx]
  simp

theorem lowEscHead_head_ne (c : Nat) (R : PyStr) (hc : c ≠ 92) :
    lowEscHead (c :: R) = false := by
  match R with
  | [] => rfl
  | [b] => rfl
  | [b, x] => rfl
  | [b, x, y] => rfl
  | [b, x, y, z] => rfl
  | b :: x :: y :: z :: w :: t =>
      rw [lowEscHead]
      simp [hc]

theorem lowEscHead_second_ne (a b : Nat) (R : PyStr) (hb : b ≠ 117) :
    lowEscHead (a :: b :: R) = false := by
  match R with
  | [] => rfl
  | [x] => rfl
  | [x, y] => rfl
  | [x, y, z] => rfl
  | x :: y :: z :: w :: t =>
      rw [lowEscHead]
      simp [hb]

theorem lowEscHead_escCp (c : Nat) (R : PyStr) (hc : c < 1114112) :
    lowEscHead (escCp true c ++ R) = (56320 ≤ c && c < 57344) := by
  rw [escCp]
  by_cases h34 : c = 34
  · rw [if_pos h34, show ([92, 34] : PyStr) ++ R = 92 :: 34 :: R from rfl,
      lowEscHead_second_ne _ _ _ (by omega)]
    simp [h34]
  rw [if_neg h34]
  by_cases h92 : c = 92
  · rw [if_pos h92, show ([92, 92] : PyStr) ++ R = 92 :: 92 :: R from rfl,
      lowEscHead_second_ne _ _ _ (by omega)]
    simp [h92]
  rw [if_neg h92]
  by_cases h8 : c = 8
  · rw [if_pos h8, show ([92, 98] : PyStr) ++ R = 92 :: 98 :: R from rfl,
      lowEscHead_second_ne _ _ _ (by omega)]
    simp [h8]
  rw [if_neg h8]
  by_cases h9 : c = 9
  · rw [if_pos h9, show ([92, 116] : PyStr) ++ R = 92 :: 116 :: R from rfl,
      lowEscHead_second_ne _ _ _ (by omega)]
    simp [h9]
  rw [if_neg h9]
  by_cases h10 : c = 10
  · rw [if_pos h10, show ([92, 110] : PyStr) ++ R = 92 :: 110 :: R from rfl,
      lowEscHead_second_ne _ _ _ (by omega)]
    simp [h10]
  rw [if_neg h10]
  by_cases h12 : c = 12
  · rw [if_pos h12, show ([92, 102] : PyStr) ++ R = 92 :: 102 :: R from rfl,
      lowEscHead_second_ne _ _ _ (by omega)]
    simp [h12]
  rw [if_neg h12]
  by_cases h13 : c = 13
  · rw [if_pos h13, show ([92, 114] : PyStr) ++ R = 92 :: 114 :: R from rfl,
      lowEscHead_second_ne _ _ _ (by omega)]
    simp [h13]
  rw [if_neg h13]
  by_cases h32 : c < 32
  · rw [if_pos h32, lowEscHead_esc4 _ (by omega)]
  rw [if_neg h32]
  by_cases h126 : c ≤ 126
  · rw [if_pos h126, show ([c] : PyStr) ++ R = c :: R from rfl,
      lowEscHead_head_ne _ _ h92]
    have : ¬(56320 ≤ c) := by omega
    simp [this]
  rw [if_neg h126, if_pos rfl]
  by_cases hbmp : c < 65536
  · rw [if_pos hbmp, lowEscHead_esc4 _ (by omega)]
  · rw [if_neg hbmp, List.append_assoc,
      lowEscHead_esc4 _ (by omega)]
    have h1 : ¬(56320 ≤ 55296 + (c - 65536) / 1024) := by omega
    have h2 : ¬(c < 57344) := by omega
    simp [h1, h2]

theorem pairLow_none (R : PyStr) (h : lowEscHead R = false) : pairLow R = none := by
  match R with
  | [] => rfl
  | [a] => rfl
  | [a, b] => rfl
  | [a, b, x] => rfl
  | [a, b, x, y] => rfl
  | [a, b, x, y, z] => rfl
  | a :: b :: x :: y :: z :: w :: t =>
      rw [lowEscHead] at h
      rw [pairLow]
      by_cases ha : a = 92
      · rw [if_pos ha]
        by_cases hb : b = 117
        · rw [if_pos hb]
          subst ha
          subst hb
          simp only [beq_self_eq_true, Bool.true_and] at h
          cases hh : hex4 x y z w with
          | none => rfl
          | some u2 =>
              rw [hh] at h
              have h2 : (decide (56320 ≤ u2) && decide (u2 < 57344)) = false := h
              simp [h2]
        · rw [if_neg hb]
      · rw [if_neg ha]

theorem pairLow_esc4 (u2 : Nat) (R : PyStr) (h1 : 56320 ≤ u2) (h2 : u2 < 57344) :
    pairLow (esc4 u2 ++ R) = some (u2, R) := by
  rw [esc4]
  rw [show ([92, 117, hexDig (u2 / 4096 % 16), hexDig (u2 / 256 % 16),
        hexDig (u2 / 16 % 16), hexDig (u2 % 16)] : PyStr) ++ R
      = 92 :: 117 :: hexDig (u2 / 4096 % 16) :: hexDig (u2 / 256 % 16)
        :: hexDig (u2 / 16 % 16) :: hexDig (u2 % 16) :: R from rfl]
  rw [pairLow, if_pos rfl, if_pos rfl, hex4_esc4 _ (by omega)]
  simp [h1, h2]

theorem scan_esc4_step (g : Nat) (acc : PyStr) (x : Nat) (R : PyStr) (hx : x < 65536) :
    py_scanstring true (g + 1) acc (esc4 x ++ R)
      = if 55296 ≤ x && x < 56320 then
          match pairLow R with
          | some (u2, r3) =>
              py_scanstring true g ((65536 + (x - 55296) * 1024 + (u2 - 56320)) :: acc) r3
          | none => py_scanstring true g (x :: acc) R
        else py_scanstring true g (x :: acc) R := by
  rw [esc4]
  rw [show ([92, 117, hexDig (x / 4096 % 16), hexDig (x / 256 % 16),
        hexDig (x / 16 % 16), hexDig (x % 16)] : PyStr) ++ R
      = 92 :: 117 :: hexDig (x / 4096 % 16) :: hexDig (x / 256 % 16)
        :: hexDig (x / 16 % 16) :: hexDig (x % 16) :: R from rfl]
  rw [py_scanstring]
  simp only [hex4_esc4 x hx]
  norm_num
  try rfl

theorem scan_step (g : Nat) (acc : PyStr) (c : Nat) (R : PyStr)
    (hc : c < 1114112)
    (hlow : 55296 ≤ c → c < 56320 → lowEscHead R = false) :
    py_scanstring true (g + 1) acc (escCp true c ++ R)
      = py_scanstring true g (c :: acc) R := by
  rw [escCp]
  by_cases h34 : c = 34
  · subst h34
    rw [if_pos rfl]
    rfl
  rw [if_neg h34]
  by_cases h92 : c = 92
  · subst h92
    rw [if_pos rfl]
    rfl
  rw [if_neg h92]
  by_cases h8 : c = 8
  · subst h8
    rw [if_pos rfl]
    rfl
  rw [if_neg h8]
  by_cases h9 : c = 9
  · subst h9
    rw [if_pos rfl]
    rfl
  rw [if_neg h9]
  by_cases h10 : c = 10
  · subst h10
    rw [if_pos rfl]
    rfl
  rw [if_neg h10]
  by_cases h12 : c = 12
  · subst h12
    rw [if_pos rfl]
    rfl
  rw [if_neg h12]
  by_cases h13 : c = 13
  · subst h13
    rw [if_pos rfl]
    rfl
  rw [if_neg h13]
  by_cases h32 : c < 32
  · rw [if_pos h32, scan_esc4_step g acc c R (by omega)]
    rw [if_neg]
    simp
    omega
  rw [if_neg h32]
  by_cases h126 : c ≤ 126
  · rw [if_pos h126]
    rw [show ([c] : PyStr) ++ R = c :: R from rfl]
    rw [py_scanstring.eq_def]
    simp only []
    rw [if_neg h34, if_neg h92, if_neg]
    simp [h32]
  rw [if_neg h126, if_pos rfl]
  by_cases hbmp : c < 65536
  · rw [if_pos hbmp, scan_esc4_step g acc c R hbmp]
    by_cases hhi : 55296 ≤ c ∧ c < 56320
    · rw [if_pos (show (decide (55296 ≤ c) && decide (c < 56320)) = true from by
        simp only [Bool.and_eq_true, decide_eq_true_eq]; exact ⟨hhi.1, hhi.2⟩)]
      rw [pairLow_none R (hlow hhi.1 hhi.2)]
    · rw [if_neg (show ¬(decide (55296 ≤ c) && decide (c < 56320)) = true from by
        simp only [Bool.and_eq_true, decide_eq_true_eq]; exact hhi)]
  · rw [if_neg hbmp, List.append_assoc,
      scan_esc4_step g acc _ (esc4 (56320 + (c - 65536) % 1024) ++ R) (by omega)]
    rw [if_pos (show (decide (55296 ≤ 55296 + (c - 65536) / 1024)
        && decide (55296 + (c - 65536) / 1024 < 56320)) = true from by
        simp only [Bool.and_eq_true, decide_eq_true_eq]; exact ⟨by omega, by omega⟩)]
    rw [pairLow_esc4 _ R (by omega) (by omega)]
    show py_scanstring true g
      ((65536 + (55296 + (c - 65536) / 1024 - 55296) * 1024
        + (56320 + (c - 65536) % 1024 - 56320)) :: acc) R
        = py_scanstring true g (c :: acc) R
    rw [show 65536 + (55296 + (c - 65536) / 1024 - 55296) * 1024
        + (56320 + (c - 65536) % 1024 - 56320) = c from by omega]

theorem surrSafe_tail (a : Nat) (t : PyStr) (h : surrSafe (a :: t) = true) :
    surrSafe t = true := by
  match t with
  | [] => rfl
  | b :: t2 =>
      rw [surrSafe] at h
      exact (Bool.and_eq_true _ _ |>.mp h).2

theorem scan_render (s : PyStr) (K0 : PyStr) :
    ∀ (acc : PyStr) (g : Nat), strOk s = true → s.length < g →
    py_scanstring true g acc (concatMap (escCp true) s ++ 34 :: K0)
      = .ok (acc.reverse ++ s, K0) := by
  induction s with
  | nil =>
      intro acc g _ hg
      obtain ⟨g2, rfl⟩ : ∃ g2, g = g2 + 1 := ⟨g - 1, by omega⟩
      rw [concatMap]
      simp only [List.nil_append, List.append_nil]
      rfl
  | cons c s ih =>
      intro acc g hok hg
      obtain ⟨g2, rfl⟩ : ∃ g2, g = g2 + 1 := ⟨g - 1, by omega⟩
      have hcp : cpOk (c :: s) = true := (Bool.and_eq_true _ _ |>.mp hok).1
      have hss : surrSafe (c :: s) = true := (Bool.and_eq_true _ _ |>.mp hok).2
      have hc : c < 1114112 := by
        have := (List.all_eq_true.mp hcp) c (by simp)
        simpa using this
      have hok2 : strOk s = true := by
        rw [strOk, Bool.and_eq_true]
        refine ⟨?_, surrSafe_tail c s hss⟩
        rw [cpOk, List.all_eq_true]
        intro x hx
        exact (List.all_eq_true.mp hcp) x (by simp [hx])
      have hlow : 55296 ≤ c → c < 56320 →
          lowEscHead (concatMap (escCp true) s ++ 34 :: K0) = false := by
        intro hc1 hc2
        match s with
        | [] =>
            rw [concatMap]
            simp only [List.nil_append]
            exact lowEscHead_head_ne 34 K0 (by omega)
        | c2 :: s2 =>
            rw [concatMap, List.append_assoc]
            have hc2p : c2 < 1114112 := by
              have := (List.all_eq_true.mp hcp) c2 (by simp)
              simpa using this
            rw [lowEscHead_escCp c2 _ hc2p]
            rw [surrSafe] at hss
            have hng := (Bool.and_eq_true _ _ |>.mp hss).1
            have hd : ¬(56320 ≤ c2 ∧ c2 < 57344) := by
              intro hl
              have hx : (55296 ≤ c && c < 56320 && (56320 ≤ c2)
                  && (c2 < 57344)) = true := by
                simp only [Bool.and_eq_true, decide_eq_true_eq]
                exact ⟨⟨⟨hc1, hc2⟩, hl.1⟩, hl.2⟩
              rw [hx] at hng
              simp at hng
            by_cases hl1 : 56320 ≤ c2
            · by_cases hl2 : c2 < 57344
              · exact absurd ⟨hl1, hl2⟩ hd
              · simp [hl2]
            · simp [hl1]
      rw [concatMap, List.append_assoc, scan_step g2 acc c _ hc hlow]
      rw [ih (c :: acc) g2 hok2 (by simpa using Nat.lt_of_succ_lt_succ hg)]
      simp

theorem escCp_length_pos (ascii : Bool) (c : Nat) : 1 ≤ (escCp ascii c).length := by
  rw [escCp]
  by_cases h1 : c = 34
  · rw [if_pos h1]
    simp [esc4]
  rw [if_neg h1]
  by_cases h2 : c = 92
  · rw [if_pos h2]
    simp [esc4]
  rw [if_neg h2]
  by_cases h3 : c = 8
  · rw [if_pos h3]
    simp [esc4]
  rw [if_neg h3]
  by_cases h4 : c = 9
  · rw [if_pos h4]
    simp [esc4]
  rw [if_neg h4]
  by_cases h5 : c = 10
  · rw [if_pos h5]
    simp [esc4]
  rw [if_neg h5]
  by_cases h6 : c = 12
  · rw [if_pos h6]
    simp [esc4]
  rw [if_neg h6]
  by_cases h7 : c = 13
  · rw [if_pos h7]
    simp [esc4]
  rw [if_neg h7]
  by_cases h8 : c < 32
  · rw [if_pos h8]
    simp [esc4]
  rw [if_neg h8]
  by_cases h9 : c ≤ 126
  · rw [if_pos h9]
    simp [esc4]
  rw [if_neg h9]
  by_cases ha : ascii = true
  · rw [if_pos ha]
    by_cases hb : c < 65536
    · rw [if_pos hb]
      simp [esc4]
    · rw [if_neg hb]
      simp [esc4]
  · rw [if_neg ha]
    simp

theorem concatMap_escCp_len (s : PyStr) :
    s.length ≤ (concatMap (escCp true) s).length := by
  induction s with
  | nil => simp [concatMap]
  | cons c t ih =>
      rw [concatMap]
      simp only [List.length_append, List.length_cons]
      have := escCp_length_pos true c
      omega

theorem nlIndent_df (lvl : Nat) : nlIndent SENSIBLE_DEFAULTS lvl = [] := rfl

theorem itemSep_df : JSONEncoder.item_separator SENSIBLE_DEFAULTS = [44, 32] := rfl

theorem keySep_df : JSONEncoder.key_separator SENSIBLE_DEFAULTS = [58, 32] := rfl

theorem jsize_pos (v : JValue) : 1 ≤ jsize v := by
  cases v <;> simp [jsize]

theorem jsizeL_pos (vs : List JValue) : 1 ≤ jsizeL vs := by
  cases vs
  · simp [jsizeL]
  · rw [jsizeL]
    omega

theorem jsizeM_pos (ps : List (PyStr × JValue)) : 1 ≤ jsizeM ps := by
  cases ps
  · simp [jsizeM]
  · rw [jsizeM]
    omega

theorem numBoundary_comma (t : PyStr) : numBoundary (44 :: t) = true := rfl

theorem numBoundary_rbrk (t : PyStr) : numBoundary (93 :: t) = true := rfl

theorem numBoundary_rbrc (t : PyStr) : numBoundary (125 :: t) = true := rfl

theorem intDec_cons (i : Int) :
    ∃ c t, intDec i = c :: t ∧ (c = 45 ∨ digitCp c = true) := by
  rw [intDec]
  by_cases hi : i < 0
  · rw [if_pos hi]
    exact ⟨45, _, rfl, Or.inl rfl⟩
  · rw [if_neg hi]
    obtain ⟨c, t, h, hd⟩ := natDigs_cons i.natAbs
    exact ⟨c, t, by simp [h], Or.inr hd⟩

theorem goodHead_of_sign_digit (c : Nat) (hd : c = 45 ∨ digitCp c = true) :
    isWsCp c = false ∧ c ≠ 93 ∧ c ≠ 125 ∧ c ≠ 44 := by
  rcases hd with rfl | hd
  · exact ⟨by decide, by decide, by decide, by decide⟩
  · have hb : 48 ≤ c ∧ c ≤ 57 := by simpa [digitCp] using hd
    refine ⟨?_, by omega, by omega, by omega⟩
    simp only [isWsCp, Bool.or_eq_false_iff, beq_eq_false_iff_ne]
    refine ⟨⟨⟨?_, ?_⟩, ?_⟩, ?_⟩ <;> omega

theorem encHead (v : JValue) (ef lvl : Nat) (hef : 1 ≤ ef) :
    ∃ c t, encGo SENSIBLE_DEFAULTS ef lvl (.one v) = c :: t ∧
      isWsCp c = false ∧ c ≠ 93 ∧ c ≠ 125 ∧ c ≠ 44 := by
  obtain ⟨f, rfl⟩ : ∃ f, ef = f + 1 := ⟨ef - 1, by omega⟩
  cases v with
  | null => exact ⟨110, _, rfl, by decide, by decide, by decide, by decide⟩
  | boolean b =>
      cases b
      · exact ⟨102, _, rfl, by decide, by decide, by decide, by decide⟩
      · exact ⟨116, _, rfl, by decide, by decide, by decide, by decide⟩
  | int i =>
      obtain ⟨c, t, h, hd⟩ := intDec_cons i
      obtain ⟨p1, p2, p3, p4⟩ := goodHead_of_sign_digit c hd
      exact ⟨c, t, by rw [show encGo SENSIBLE_DEFAULTS (f + 1) lvl (.one (.int i))
        = intDec i from rfl, h], p1, p2, p3, p4⟩
  | float m e =>
      obtain ⟨c, t, h, hd⟩ := intDec_cons m
      obtain ⟨p1, p2, p3, p4⟩ := goodHead_of_sign_digit c hd
      refine ⟨c, t ++ 101 :: intDec e, ?_, p1, p2, p3, p4⟩
      rw [show encGo SENSIBLE_DEFAULTS (f + 1) lvl (.one (.float m e))
        = floatRepr m e from rfl, floatRepr, h, List.cons_append]
  | dec m e =>
      obtain ⟨c, t, h, hd⟩ := intDec_cons m
      obtain ⟨p1, p2, p3, p4⟩ := goodHead_of_sign_digit c hd
      refine ⟨c, t ++ 101 :: intDec e, ?_, p1, p2, p3, p4⟩
      rw [show encGo SENSIBLE_DEFAULTS (f + 1) lvl (.one (.dec m e))
        = floatRepr m e from rfl, floatRepr, h, List.cons_append]
  | str s => exact ⟨34, _, rfl, by decide, by decide, by decide, by decide⟩
  | arr vs =>
      cases vs
      · exact ⟨91, _, rfl, by decide, by decide, by decide, by decide⟩
      · exact ⟨91, _, rfl, by decide, by decide, by decide, by decide⟩
  | obj ms =>
      cases ms
      · exact ⟨123, _, rfl, by decide, by decide, by decide, by decide⟩
      · exact ⟨123, _, rfl, by decide, by decide, by decide, by decide⟩

theorem itemsHead (v0 : JValue) (vs0 : List JValue) (ef lvl : Nat) (hef : 2 ≤ ef) :
    ∃ c t, encGo SENSIBLE_DEFAULTS ef lvl (.items (v0 :: vs0)) = c :: t ∧
      isWsCp c = false ∧ c ≠ 93 ∧ c ≠ 125 ∧ c ≠ 44 := by
  obtain ⟨f, rfl⟩ : ∃ f, ef = f + 1 := ⟨ef - 1, by omega⟩
  obtain ⟨c, t, h, props⟩ := encHead v0 f lvl (by omega)
  cases vs0 with
  | nil =>
      refine ⟨c, t, ?_, props⟩
      show encGo SENSIBLE_DEFAULTS f lvl (.one v0) = c :: t
      exact h
  | cons v1 vs1 =>
      have hrw : encGo SENSIBLE_DEFAULTS (f + 1) lvl (.items (v0 :: v1 :: vs1))
          = encGo SENSIBLE_DEFAULTS f lvl (.one v0)
            ++ JSONEncoder.item_separator SENSIBLE_DEFAULTS
            ++ nlIndent SENSIBLE_DEFAULTS lvl
            ++ encGo SENSIBLE_DEFAULTS f lvl (.items (v1 :: vs1)) := rfl
      refine ⟨c, t ++ (JSONEncoder.item_separator SENSIBLE_DEFAULTS
        ++ nlIndent SENSIBLE_DEFAULTS lvl
        ++ encGo SENSIBLE_DEFAULTS f lvl (.items (v1 :: vs1))), ?_, props⟩
      rw [hrw, h]
      simp [List.cons_append, List.append_assoc]

theorem membersHead (p0 : PyStr × JValue) (ps0 : List (PyStr × JValue))
    (ef lvl : Nat) :
    ∃ t, encGo SENSIBLE_DEFAULTS (ef + 1) lvl (.members (p0 :: ps0)) = 34 :: t := by
  cases ps0 with
  | nil =>
      refine ⟨concatMap (escCp true) p0.1 ++ [34]
        ++ JSONEncoder.key_separator SENSIBLE_DEFAULTS
        ++ encGo SENSIBLE_DEFAULTS ef lvl (.one p0.2), ?_⟩
      show encodeBasestring true p0.1 ++ JSONEncoder.key_separator SENSIBLE_DEFAULTS
        ++ encGo SENSIBLE_DEFAULTS ef lvl (.one p0.2) = _
      rw [encodeBasestring]
      simp [List.cons_append, List.append_assoc]
  | cons p1 ps1 =>
      refine ⟨concatMap (escCp true) p0.1 ++ [34]
        ++ JSONEncoder.key_separator SENSIBLE_DEFAULTS
        ++ encGo SENSIBLE_DEFAULTS ef lvl (.one p0.2)
        ++ JSONEncoder.item_separator SENSIBLE_DEFAULTS
        ++ nlIndent SENSIBLE_DEFAULTS lvl
        ++ encGo SENSIBLE_DEFAULTS ef lvl (.members (p1 :: ps1)), ?_⟩
      show encodeBasestring true p0.1 ++ JSONEncoder.key_separator SENSIBLE_DEFAULTS
        ++ encGo SENSIBLE_DEFAULTS ef lvl (.one p0.2)
        ++ JSONEncoder.item_separator SENSIBLE_DEFAULTS
        ++ nlIndent SENSIBLE_DEFAULTS lvl
        ++ encGo SENSIBLE_DEFAULTS ef lvl (.members (p1 :: ps1)) = _
      rw [encodeBasestring]
      simp [List.cons_append, List.append_assoc]

theorem nodupKeys_extract (xs : List (PyStr × JValue)) (k : PyStr) (v : JValue)
    (ys : List (PyStr × JValue)) (h : nodupKeys (xs ++ (k, v) :: ys) = true) :
    ∀ q ∈ xs, ¬(q.1 = k) := by
  induction xs with
  | nil => simp
  | cons p xs ih =>
      obtain ⟨k0, v0⟩ := p
      rw [List.cons_append, nodupKeys, Bool.and_eq_true] at h
      obtain ⟨hall, hrest⟩ := h
      intro q hq
      rcases List.mem_cons.mp hq with rfl | hq2
      · have hm := List.all_eq_true.mp hall (k, v) (by simp)
        simp only [Bool.not_eq_true', beq_eq_false_iff_ne] at hm
        intro he
        exact hm (by rw [← he])
      · exact ih hrest q hq2

theorem dictSet_append (acc : List (PyStr × JValue)) (k : PyStr) (v : JValue)
    (hnot : ∀ q ∈ acc, ¬(q.1 = k)) : dictSet acc k v = acc ++ [(k, v)] := by
  induction acc with
  | nil => rfl
  | cons p t ih =>
      obtain ⟨k0, v0⟩ := p
      rw [dictSet, if_neg, List.cons_append]
      · rw [ih (fun q hq => hnot q (by simp [hq]))]
      · exact fun he => hnot (k0, v0) (by simp) he

theorem pairsToDictAux_id : ∀ (ps acc : List (PyStr × JValue)),
    nodupKeys (acc ++ ps) = true →
    ps.foldl (fun a p => dictSet a p.1 p.2) acc = acc ++ ps := by
  intro ps
  induction ps with
  | nil =>
      intro acc h
      simp
  | cons p t ih =>
      intro acc h
      obtain ⟨k, v⟩ := p
      simp only [List.foldl_cons]
      rw [show dictSet acc (k, v).1 (k, v).2 = dictSet acc k v from rfl]
      rw [dictSet_append acc k v (nodupKeys_extract acc k v t h)]
      rw [ih (acc ++ [(k, v)]) (by rw [List.append_assoc]; simpa using h)]
      simp

theorem pairsToDict_nodup_id (ps : List (PyStr × JValue))
    (h : nodupKeys ps = true) : pairsToDict ps = ps := by
  rw [pairsToDict]
  have hx := pairsToDictAux_id ps [] (by simpa using h)
  simpa using hx

theorem scanValue_null (d : JSONDecoder) (f : Nat) (r : PyStr) :
    scanValue d (f + 1) (110 :: 117 :: 108 :: 108 :: r) = .ok (.null, r) := rfl

theorem scanValue_true (d : JSONDecoder) (f : Nat) (r : PyStr) :
    scanValue d (f + 1) (116 :: 114 :: 117 :: 101 :: r) = .ok (.boolean true, r) := rfl

theorem scanValue_false (d : JSONDecoder) (f : Nat) (r : PyStr) :
    scanValue d (f + 1) (102 :: 97 :: 108 :: 115 :: 101 :: r)
      = .ok (.boolean false, r) := rfl

theorem scanValue_arrnil (d : JSONDecoder) (f : Nat) (K : PyStr) :
    scanValue d (f + 1) (91 :: 93 :: K) = .ok (.arr [], K) := rfl

theorem scanValue_objnil (d : JSONDecoder) (f : Nat) (K : PyStr) :
    scanValue d (f + 1) (123 :: 125 :: K) = .ok (makeObject d [], K) := rfl

theorem scanValue_str (d : JSONDecoder) (f : Nat) (r : PyStr) :
    scanValue d (f + 1) (34 :: r)
      = (py_scanstring d.strict (r.length + 1) [] r).map (fun p => (.str p.1, p.2)) := rfl

theorem scanValue_arr_ne (d : JSONDecoder) (f : Nat) (r : PyStr) (c2 : Nat)
    (r2 : PyStr) (hsk : skipWsL r = c2 :: r2) (h93 : c2 ≠ 93) :
    scanValue d (f + 1) (91 :: r)
      = (scanArray d f (c2 :: r2)).map (fun p => (.arr p.1, p.2)) := by
  rw [scanValue, skipWsL_nonws 91 r (by decide)]
  simp only [hsk, if_neg (show ¬((91 : Nat) = 34) from by omega), if_pos rfl,
    if_neg h93]
  simp only [if_true]

theorem scanValue_obj_ne (d : JSONDecoder) (f : Nat) (r : PyStr) (c2 : Nat)
    (r2 : PyStr) (hsk : skipWsL r = c2 :: r2) (h125 : c2 ≠ 125) :
    scanValue d (f + 1) (123 :: r)
      = (scanObject d f (c2 :: r2)).map (fun p => (makeObject d p.1, p.2)) := by
  rw [scanValue, skipWsL_nonws 123 r (by decide)]
  simp only [hsk, if_neg (show ¬((123 : Nat) = 34) from by omega),
    if_neg (show ¬((123 : Nat) = 91) from by omega), if_pos rfl, if_neg h125]
  simp only [if_true]

theorem makeObject_default (ps : List (PyStr × JValue)) (h : nodupKeys ps = true) :
    makeObject _default_decoder ps = .obj ps := by
  rw [show makeObject _default_decoder ps = .obj (pairsToDict ps) from rfl]
  rw [pairsToDict_nodup_id ps h]

theorem encLen_pos (v : JValue) (ef lvl : Nat) (hef : 1 ≤ ef) :
    1 ≤ (encGo SENSIBLE_DEFAULTS ef lvl (.one v)).length := by
  obtain ⟨c, t, h, -, -, -, -⟩ := encHead v ef lvl hef
  rw [h]
  simp

theorem sign_digit_ne (c : Nat) (hd : c = 45 ∨ digitCp c = true) :
    c ≠ 34 ∧ c ≠ 91 ∧ c ≠ 123 ∧ c ≠ 110 ∧ c ≠ 116 ∧ c ≠ 102 := by
  rcases hd with rfl | hd2
  · exact ⟨by omega, by omega, by omega, by omega, by omega, by omega⟩
  · have hb : 48 ≤ c ∧ c ≤ 57 := by simpa [digitCp] using hd2
    exact ⟨by omega, by omega, by omega, by omega, by omega, by omega⟩

theorem rt_all : ∀ f : Nat,
    (∀ (v : JValue) (ef lvl : Nat) (K : PyStr), wfJ v = true → jsize v ≤ ef →
        numBoundary K = true →
        (encGo SENSIBLE_DEFAULTS ef lvl (.one v)).length < f →
        scanValue _default_decoder f (encGo SENSIBLE_DEFAULTS ef lvl (.one v) ++ K)
          = .ok (v, K))
    ∧ (∀ (v0 : JValue) (vs0 : List JValue) (ef lvl : Nat) (K : PyStr),
        wfL (v0 :: vs0) = true → jsizeL (v0 :: vs0) ≤ ef →
        (encGo SENSIBLE_DEFAULTS ef lvl (.items (v0 :: vs0))).length + 1 < f →
        scanArray _default_decoder f
          (encGo SENSIBLE_DEFAULTS ef lvl (.items (v0 :: vs0)) ++ 93 :: K)
          = .ok (v0 :: vs0, K))
    ∧ (∀ (p0 : PyStr × JValue) (ps0 : List (PyStr × JValue)) (ef lvl : Nat)
        (K : PyStr),
        wfM (p0 :: ps0) = true → jsizeM (p0 :: ps0) ≤ ef →
        (encGo SENSIBLE_DEFAULTS ef lvl (.members (p0 :: ps0))).length + 1 < f →
        scanObject _default_decoder f
          (encGo SENSIBLE_DEFAULTS ef lvl (.members (p0 :: ps0)) ++ 125 :: K)
          = .ok (p0 :: ps0, K)) := by
  intro f
  induction f with
  | zero =>
      refine ⟨?_, ?_, ?_⟩
      · intro v ef lvl K _ _ _ hlen
        omega
      · intro v0 vs0 ef lvl K _ _ hlen
        omega
      · intro p0 ps0 ef lvl K _ _ hlen
        omega
  | succ f ih =>
      obtain ⟨ihV, ihL, ihM⟩ := ih
      refine ⟨?_, ?_, ?_⟩
      · intro v ef lvl K hwf hef hK hlen
        obtain ⟨ef2, rfl⟩ : ∃ e2, ef = e2 + 1 :=
          ⟨ef - 1, by have := jsize_pos v; omega⟩
        cases v with
        | null =>
            show scanValue _default_decoder (f + 1)
              (110 :: 117 :: 108 :: 108 :: K) = .ok (.null, K)
            exact scanValue_null _ f K
        | boolean b =>
            cases b
            · show scanValue _default_decoder (f + 1)
                (102 :: 97 :: 108 :: 115 :: 101 :: K) = .ok (.boolean false, K)
              exact scanValue_false _ f K
            · show scanValue _default_decoder (f + 1)
                (116 :: 114 :: 117 :: 101 :: K) = .ok (.boolean true, K)
              exact scanValue_true _ f K
        | int i =>
            obtain ⟨c, t, hct, hd⟩ := intDec_cons i
            obtain ⟨hw, -, -, -⟩ := goodHead_of_sign_digit c hd
            obtain ⟨n34, n91, n123, n110, n116, n102⟩ := sign_digit_ne c hd
            have hX : encGo SENSIBLE_DEFAULTS (ef2 + 1) lvl (.one (.int i)) ++ K
                = c :: (t ++ K) := by
              rw [show encGo SENSIBLE_DEFAULTS (ef2 + 1) lvl (.one (.int i))
                = intDec i from rfl, hct, List.cons_append]
            have h3 : intDec i ++ K = c :: (t ++ K) := hX
            have hmn := matchNumber_intDec i K hK
            rw [h3] at hmn
            rw [hX, scanValue_num _ f c (t ++ K) _ K hw n34 n91 n123 n110 n116
              n102 hmn]
            rw [show _default_decoder.parse_float = none from rfl, numValue_int_lit]
        | float m e =>
            have hcf : canonF m e = true := by
              rw [show wfJ (.float m e) = canonF m e from rfl] at hwf
              exact hwf
            obtain ⟨c, t, hct, hd⟩ := intDec_cons m
            obtain ⟨hw, -, -, -⟩ := goodHead_of_sign_digit c hd
            obtain ⟨n34, n91, n123, n110, n116, n102⟩ := sign_digit_ne c hd
            have hX : encGo SENSIBLE_DEFAULTS (ef2 + 1) lvl (.one (.float m e)) ++ K
                = c :: (t ++ (101 :: intDec e ++ K)) := by
              rw [show encGo SENSIBLE_DEFAULTS (ef2 + 1) lvl (.one (.float m e))
                = floatRepr m e from rfl, floatRepr, hct]
              simp [List.append_assoc]
            have h3 : floatRepr m e ++ K = c :: (t ++ (101 :: intDec e ++ K)) := hX
            have hmn := matchNumber_floatRepr m e K hK
            rw [h3] at hmn
            rw [hX, scanValue_num _ f c (t ++ (101 :: intDec e ++ K)) _ K hw n34
              n91 n123 n110 n116 n102 hmn]
            rw [show _default_decoder.parse_float = none from rfl,
              numValue_float_lit m e hcf]
        | dec m e =>
            rw [show wfJ (.dec m e) = false from rfl] at hwf
            exact absurd hwf (by simp)
        | str s =>
            have hstr : strOk s = true := by
              rw [show wfJ (.str s) = strOk s from rfl] at hwf
              exact hwf
            have hX : encGo SENSIBLE_DEFAULTS (ef2 + 1) lvl (.one (.str s)) ++ K
                = 34 :: (concatMap (escCp true) s ++ 34 :: K) := by
              show (34 :: (concatMap (escCp true) s ++ [34])) ++ K = _
              simp [List.append_assoc]
            rw [hX, scanValue_str, show _default_decoder.strict = true from rfl]
            have hglen : s.length
                < (concatMap (escCp true) s ++ 34 :: K).length + 1 := by
              have := concatMap_escCp_len s
              simp only [List.length_append, List.length_cons]
              omega
            rw [scan_render s K []
              ((concatMap (escCp true) s ++ 34 :: K).length + 1) hstr hglen]
            simp [Except.map]
        | arr vs =>
            cases vs with
            | nil =>
                show scanValue _default_decoder (f + 1) (91 :: 93 :: K)
                  = .ok (.arr [], K)
                exact scanValue_arrnil _ f K
            | cons v0 vs0 =>
                have hwfl : wfL (v0 :: vs0) = true := by
                  rw [show wfJ (.arr (v0 :: vs0)) = wfL (v0 :: vs0) from rfl] at hwf
                  exact hwf
                have hsz : jsizeL (v0 :: vs0) ≤ ef2 := by
                  rw [show jsize (.arr (v0 :: vs0)) = 1 + jsizeL (v0 :: vs0)
                    from rfl] at hef
                  omega
                have hbody : encGo SENSIBLE_DEFAULTS (ef2 + 1) lvl
                      (.one (.arr (v0 :: vs0)))
                    = 91 :: (encGo SENSIBLE_DEFAULTS ef2 (lvl + 1)
                        (.items (v0 :: vs0)) ++ [93]) := by
                  show 91 :: (nlIndent SENSIBLE_DEFAULTS (lvl + 1)
                    ++ encGo SENSIBLE_DEFAULTS ef2 (lvl + 1) (.items (v0 :: vs0))
                    ++ nlIndent SENSIBLE_DEFAULTS lvl ++ [93]) = _
                  rw [nlIndent_df, nlIndent_df]
                  simp
                have hX : encGo SENSIBLE_DEFAULTS (ef2 + 1) lvl
                      (.one (.arr (v0 :: vs0))) ++ K
                    = 91 :: (encGo SENSIBLE_DEFAULTS ef2 (lvl + 1)
                        (.items (v0 :: vs0)) ++ 93 :: K) := by
                  rw [hbody]
                  simp [List.append_assoc]
                obtain ⟨c2, t2, hI, hw2, h93b, -, -⟩ :=
                  itemsHead v0 vs0 ef2 (lvl + 1) (by
                    have h1 := jsizeL_pos vs0
                    have h2 := jsize_pos v0
                    rw [jsizeL] at hsz
                    omega)
                have hsk : skipWsL (encGo SENSIBLE_DEFAULTS ef2 (lvl + 1)
                      (.items (v0 :: vs0)) ++ 93 :: K)
                    = c2 :: (t2 ++ 93 :: K) := by
                  rw [hI, List.cons_append, skipWsL_nonws c2 _ hw2]
                rw [hX, scanValue_arr_ne _ f _ c2 (t2 ++ 93 :: K) hsk h93b]
                have hback : (c2 :: (t2 ++ 93 :: K) : PyStr)
                    = encGo SENSIBLE_DEFAULTS ef2 (lvl + 1)
                        (.items (v0 :: vs0)) ++ 93 :: K := by
                  rw [hI, List.cons_append]
                rw [hback]
                rw [ihL v0 vs0 ef2 (lvl + 1) K hwfl hsz (by
                  rw [hbody] at hlen
                  simp only [List.length_cons, List.length_append,
                    List.length_singleton] at hlen
                  omega)]
                simp [Except.map]
        | obj ms =>
            cases ms with
            | nil =>
                show scanValue _default_decoder (f + 1) (123 :: 125 :: K)
                  = .ok (.obj [], K)
                rw [scanValue_objnil _ f K]
                rfl
            | cons p0 ps0 =>
                have hwfo : nodupKeys (p0 :: ps0) = true ∧ wfM (p0 :: ps0) = true := by
                  rw [show wfJ (.obj (p0 :: ps0))
                    = (nodupKeys (p0 :: ps0) && wfM (p0 :: ps0)) from rfl,
                    Bool.and_eq_true] at hwf
                  exact hwf
                have hsz : jsizeM (p0 :: ps0) ≤ ef2 := by
                  rw [show jsize (.obj (p0 :: ps0)) = 1 + jsizeM (p0 :: ps0)
                    from rfl] at hef
                  omega
                have hbody : encGo SENSIBLE_DEFAULTS (ef2 + 1) lvl
                      (.one (.obj (p0 :: ps0)))
                    = 123 :: (encGo SENSIBLE_DEFAULTS ef2 (lvl + 1)
                        (.members (p0 :: ps0)) ++ [125]) := by
                  show 123 :: (nlIndent SENSIBLE_DEFAULTS (lvl + 1)
                    ++ encGo SENSIBLE_DEFAULTS ef2 (lvl + 1) (.members (p0 :: ps0))
                    ++ nlIndent SENSIBLE_DEFAULTS lvl ++ [125]) = _
                  rw [nlIndent_df, nlIndent_df]
                  simp
                have hX : encGo SENSIBLE_DEFAULTS (ef2 + 1) lvl
                      (.one (.obj (p0 :: ps0))) ++ K
                    = 123 :: (encGo SENSIBLE_DEFAULTS ef2 (lvl + 1)
                        (.members (p0 :: ps0)) ++ 125 :: K) := by
                  rw [hbody]
                  simp [List.append_assoc]
                obtain ⟨t2, hI⟩ := membersHead p0 ps0 (ef2 - 1) (lvl + 1)
                have hef2 : ef2 - 1 + 1 = ef2 := by
                  have := jsizeM_pos (p0 :: ps0)
                  omega
                rw [hef2] at hI
                have hsk : skipWsL (encGo SENSIBLE_DEFAULTS ef2 (lvl + 1)
                      (.members (p0 :: ps0)) ++ 125 :: K)
                    = 34 :: (t2 ++ 125 :: K) := by
                  rw [hI, List.cons_append, skipWsL_nonws 34 _ (by decide)]
                rw [hX, scanValue_obj_ne _ f _ 34 (t2 ++ 125 :: K) hsk (by omega)]
                have hback : (34 :: (t2 ++ 125 :: K) : PyStr)
                    = encGo SENSIBLE_DEFAULTS ef2 (lvl + 1)
                        (.members (p0 :: ps0)) ++ 125 :: K := by
                  rw [hI, List.cons_append]
                rw [hback]
                rw [ihM p0 ps0 ef2 (lvl + 1) K hwfo.2 hsz (by
                  rw [hbody] at hlen
                  simp only [List.length_cons, List.length_append,
                    List.length_singleton] at hlen
                  omega)]
                simp only [Except.map]
                rw [makeObject_default _ hwfo.1]
      · intro v0 vs0 ef lvl K hwf hsz hlen
        obtain ⟨ef2, rfl⟩ : ∃ e2, ef = e2 + 1 :=
          ⟨ef - 1, by have := jsizeL_pos (v0 :: vs0); omega⟩
        have hwfv : wfJ v0 = true := by
          rw [wfL, Bool.and_eq_true] at hwf
          exact hwf.1
        have hszv : jsize v0 ≤ ef2 := by
          rw [jsizeL] at hsz
          have := jsizeL_pos vs0
          omega
        rw [scanArray]
        cases vs0 with
        | nil =>
            have hit : encGo SENSIBLE_DEFAULTS (ef2 + 1) lvl (.items [v0])
                = encGo SENSIBLE_DEFAULTS ef2 lvl (.one v0) := rfl
            rw [hit] at hlen ⊢
            rw [ihV v0 ef2 lvl (93 :: K) hwfv hszv (numBoundary_rbrk K) (by omega)]
            simp only [skipWsL_nonws 93 K (by decide),
              if_neg (show ¬((93 : Nat) = 44) from by omega), if_pos rfl, if_true]
        | cons v1 vs1 =>
            have hwfl : wfL (v1 :: vs1) = true := by
              rw [wfL, Bool.and_eq_true] at hwf
              exact hwf.2
            have hszl : jsizeL (v1 :: vs1) ≤ ef2 := by
              rw [jsizeL] at hsz
              have := jsize_pos v0
              omega
            have hit : encGo SENSIBLE_DEFAULTS (ef2 + 1) lvl
                  (.items (v0 :: v1 :: vs1))
                = encGo SENSIBLE_DEFAULTS ef2 lvl (.one v0) ++ [44, 32]
                  ++ encGo SENSIBLE_DEFAULTS ef2 lvl (.items (v1 :: vs1)) := by
              show encGo SENSIBLE_DEFAULTS ef2 lvl (.one v0)
                ++ JSONEncoder.item_separator SENSIBLE_DEFAULTS
                ++ nlIndent SENSIBLE_DEFAULTS lvl
                ++ encGo SENSIBLE_DEFAULTS ef2 lvl (.items (v1 :: vs1)) = _
              rw [itemSep_df, nlIndent_df]
              simp
            have harr : encGo SENSIBLE_DEFAULTS (ef2 + 1) lvl
                  (.items (v0 :: v1 :: vs1)) ++ 93 :: K
                = encGo SENSIBLE_DEFAULTS ef2 lvl (.one v0)
                  ++ (44 :: 32 :: (encGo SENSIBLE_DEFAULTS ef2 lvl
                      (.items (v1 :: vs1)) ++ 93 :: K)) := by
              rw [hit]
              simp [List.append_assoc]
            have hlenv : (encGo SENSIBLE_DEFAULTS ef2 lvl (.one v0)).length < f := by
              rw [hit] at hlen
              simp only [List.length_append] at hlen
              omega
            have hlenl : (encGo SENSIBLE_DEFAULTS ef2 lvl
                  (.items (v1 :: vs1))).length + 1 < f := by
              rw [hit] at hlen
              have := encLen_pos v0 ef2 lvl (by have := jsize_pos v0; omega)
              simp only [List.length_append] at hlen
              simp only [List.length_cons, List.length_nil] at hlen
              omega
            rw [harr]
            rw [ihV v0 ef2 lvl _ hwfv hszv (numBoundary_comma _) hlenv]
            obtain ⟨c2, t2, hI, hw2, -, -, -⟩ := itemsHead v1 vs1 ef2 lvl (by
              have h1 := jsizeL_pos vs1
              have h2 := jsize_pos v1
              rw [jsizeL] at hszl
              omega)
            have hskip : skipWsL (32 :: (encGo SENSIBLE_DEFAULTS ef2 lvl
                  (.items (v1 :: vs1)) ++ 93 :: K))
                = encGo SENSIBLE_DEFAULTS ef2 lvl (.items (v1 :: vs1))
                  ++ 93 :: K := by
              rw [skipWsL, if_pos (by decide)]
              rw [hI, List.cons_append, skipWsL_nonws c2 _ hw2]
            simp only [skipWsL_nonws 44 _ (by decide), if_pos rfl, hskip]
            rw [ihL v1 vs1 ef2 lvl K hwfl hszl hlenl]
            simp [Except.map]
      · intro p0 ps0 ef lvl K hwf hsz hlen
        obtain ⟨k, x⟩ := p0
        obtain ⟨ef2, rfl⟩ : ∃ e2, ef = e2 + 1 :=
          ⟨ef - 1, by have := jsizeM_pos ((k, x) :: ps0); omega⟩
        have hwf2 : strOk k = true ∧ wfJ x = true ∧ wfM ps0 = true := by
          rw [wfM, Bool.and_eq_true, Bool.and_eq_true] at hwf
          exact ⟨hwf.1.1, hwf.1.2, hwf.2⟩
        have hszP : 1 + jsize x + jsizeM ps0 ≤ ef2 + 1 := by
          rw [jsizeM] at hsz
          exact hsz
        have hszx : jsize x ≤ ef2 := by
          have := jsizeM_pos ps0
          omega
        rw [scanObject]
        cases ps0 with
        | nil =>
            have hm : encGo SENSIBLE_DEFAULTS (ef2 + 1) lvl (.members [(k, x)])
                = (34 :: (concatMap (escCp true) k ++ [34])) ++ [58, 32]
                  ++ encGo SENSIBLE_DEFAULTS ef2 lvl (.one x) := by
              show encodeBasestring true k
                ++ JSONEncoder.key_separator SENSIBLE_DEFAULTS
                ++ encGo SENSIBLE_DEFAULTS ef2 lvl (.one x) = _
              rw [keySep_df, encodeBasestring]
              simp [List.cons_append, List.append_assoc]
            have hX : encGo SENSIBLE_DEFAULTS (ef2 + 1) lvl
                  (.members [(k, x)]) ++ 125 :: K
                = 34 :: (concatMap (escCp true) k
                    ++ 34 :: (58 :: 32 :: (encGo SENSIBLE_DEFAULTS ef2 lvl
                        (.one x) ++ 125 :: K))) := by
              rw [hm]
              simp [List.append_assoc]
            rw [hX]
            simp only [skipWsL_nonws 34 _ (by decide), if_pos rfl,
              show _default_decoder.strict = true from rfl]
            have hglen : k.length < (concatMap (escCp true) k
                ++ 34 :: (58 :: 32 :: (encGo SENSIBLE_DEFAULTS ef2 lvl
                    (.one x) ++ 125 :: K))).length + 1 := by
              have := concatMap_escCp_len k
              simp only [List.length_append, List.length_cons]
              omega
            rw [scan_render k _ [] _ hwf2.1 hglen]
            simp only [List.reverse_nil, List.nil_append]
            have hskx : skipWsL (32 :: (encGo SENSIBLE_DEFAULTS ef2 lvl
                  (.one x) ++ 125 :: K))
                = encGo SENSIBLE_DEFAULTS ef2 lvl (.one x) ++ 125 :: K := by
              rw [skipWsL, if_pos (by decide)]
              obtain ⟨cx, tx, hcx, hwx, -, -, -⟩ := encHead x ef2 lvl (by
                have := jsize_pos x
                omega)
              rw [hcx, List.cons_append, skipWsL_nonws cx _ hwx]
            simp only [skipWsL_nonws 58 _ (by decide), if_pos rfl, hskx]
            have hlenx : (encGo SENSIBLE_DEFAULTS ef2 lvl (.one x)).length < f := by
              rw [hm] at hlen
              simp only [List.length_append, List.length_cons] at hlen
              omega
            rw [ihV x ef2 lvl (125 :: K) hwf2.2.1 hszx (numBoundary_rbrc K) hlenx]
            simp only [skipWsL_nonws 125 K (by decide),
              if_neg (show ¬((125 : Nat) = 44) from by omega), if_pos rfl, if_true]
        | cons p1 ps1 =>
            have hm : encGo SENSIBLE_DEFAULTS (ef2 + 1) lvl
                  (.members ((k, x) :: p1 :: ps1))
                = (34 :: (concatMap (escCp true) k ++ [34])) ++ [58, 32]
                  ++ encGo SENSIBLE_DEFAULTS ef2 lvl (.one x) ++ [44, 32]
                  ++ encGo SENSIBLE_DEFAULTS ef2 lvl (.members (p1 :: ps1)) := by
              show encodeBasestring true k
                ++ JSONEncoder.key_separator SENSIBLE_DEFAULTS
                ++ encGo SENSIBLE_DEFAULTS ef2 lvl (.one x)
                ++ JSONEncoder.item_separator SENSIBLE_DEFAULTS
                ++ nlIndent SENSIBLE_DEFAULTS lvl
                ++ encGo SENSIBLE_DEFAULTS ef2 lvl (.members (p1 :: ps1)) = _
              rw [keySep_df, itemSep_df, nlIndent_df, encodeBasestring]
              simp
            have hX : encGo SENSIBLE_DEFAULTS (ef2 + 1) lvl
                  (.members ((k, x) :: p1 :: ps1)) ++ 125 :: K
                = 34 :: (concatMap (escCp true) k
                    ++ 34 :: (58 :: 32 :: (encGo SENSIBLE_DEFAULTS ef2 lvl
                        (.one x)
                      ++ (44 :: 32 :: (encGo SENSIBLE_DEFAULTS ef2 lvl
                          (.members (p1 :: ps1)) ++ 125 :: K))))) := by
              rw [hm]
              simp [List.append_assoc]
            rw [hX]
            simp only [skipWsL_nonws 34 _ (by decide), if_pos rfl,
              show _default_decoder.strict = true from rfl]
            have hglen : k.length < (concatMap (escCp true) k
                ++ 34 :: (58 :: 32 :: (encGo SENSIBLE_DEFAULTS ef2 lvl (.one x)
                  ++ (44 :: 32 :: (encGo SENSIBLE_DEFAULTS ef2 lvl
                      (.members (p1 :: ps1)) ++ 125 :: K))))).length + 1 := by
              have := concatMap_escCp_len k
              simp only [List.length_append, List.length_cons]
              omega
            rw [scan_render k _ [] _ hwf2.1 hglen]
            simp only [List.reverse_nil, List.nil_append]
            have hskx : skipWsL (32 :: (encGo SENSIBLE_DEFAULTS ef2 lvl
                  (.one x)
                ++ (44 :: 32 :: (encGo SENSIBLE_DEFAULTS ef2 lvl
                    (.members (p1 :: ps1)) ++ 125 :: K))))
                = encGo SENSIBLE_DEFAULTS ef2 lvl (.one x)
                  ++ (44 :: 32 :: (encGo SENSIBLE_DEFAULTS ef2 lvl
                      (.members (p1 :: ps1)) ++ 125 :: K)) := by
              rw [skipWsL, if_pos (by decide)]
              obtain ⟨cx, tx, hcx, hwx, -, -, -⟩ := encHead x ef2 lvl (by
                have := jsize_pos x
                omega)
              rw [hcx, List.cons_append, skipWsL_nonws cx _ hwx]
            simp only [skipWsL_nonws 58 _ (by decide), if_pos rfl, hskx]
            have hlenx : (encGo SENSIBLE_DEFAULTS ef2 lvl (.one x)).length < f := by
              rw [hm] at hlen
              simp only [List.length_append, List.length_cons] at hlen
              omega
            rw [ihV x ef2 lvl _ hwf2.2.1 hszx (numBoundary_comma _) hlenx]
            obtain ⟨t3, hI⟩ := membersHead p1 ps1 (ef2 - 1) lvl
            have hef2 : ef2 - 1 + 1 = ef2 := by
              have := jsizeM_pos (p1 :: ps1)
              have := jsize_pos x
              omega
            rw [hef2] at hI
            have hskm : skipWsL (32 :: (encGo SENSIBLE_DEFAULTS ef2 lvl
                  (.members (p1 :: ps1)) ++ 125 :: K))
                = encGo SENSIBLE_DEFAULTS ef2 lvl (.members (p1 :: ps1))
                  ++ 125 :: K := by
              rw [skipWsL, if_pos (by decide)]
              rw [hI, List.cons_append, skipWsL_nonws 34 _ (by decide)]
            simp only [skipWsL_nonws 44 _ (by decide), if_pos rfl, hskm]
            have hszm : jsizeM (p1 :: ps1) ≤ ef2 := by
              have := jsize_pos x
              omega
            have hlenm : (encGo SENSIBLE_DEFAULTS ef2 lvl
                  (.members (p1 :: ps1))).length + 1 < f := by
              rw [hm] at hlen
              have := encLen_pos x ef2 lvl (by have := jsize_pos x; omega)
              simp only [List.length_append, List.length_cons,
                List.length_nil] at hlen
              omega
            rw [ihM p1 ps1 ef2 lvl K hwf2.2.2 hszm hlenm]
            simp [Except.map]

/-- C1: decoding the text produced by encoding a value with the fixed default
configuration returns the value itself, for every value composed of null,
booleans, integers, canonical floats, round-trippable strings (no high
surrogate immediately followed by a low surrogate), arrays and ordered
mappings with duplicate-free string keys: loads (dumps v) = ok v. -/
theorem default_roundtrip (v : JValue) (h : wfJ v = true) :
    loads (dumps v none noEncKw) none false noDecKw = .ok v := by
  have hdec : JSONDecoder.decode _default_decoder
      (encGo SENSIBLE_DEFAULTS (jsize v) 0 (.one v)) = .ok v := by
    rw [JSONDecoder.decode]
    have hs := (rt_all ((encGo SENSIBLE_DEFAULTS (jsize v) 0
      (.one v)).length + 1)).1 v (jsize v) 0 [] h (Nat.le_refl _) rfl (by omega)
    rw [List.append_nil] at hs
    rw [hs]
    rfl
  show decodeRun _default_decoder
    (encGo SENSIBLE_DEFAULTS (jsize v) 0 (.one v)) = .ok v
  rw [decodeRun, hdec]

/-- Witness: a concrete nested value round-trips through dumps and loads. -/
theorem default_roundtrip_witness :
    wfJ (JValue.arr [JValue.int (-5), JValue.str [97, 34, 1114109],
        JValue.float 11 (-1), JValue.obj [([107], JValue.boolean true)]]) = true
    ∧ loads (dumps (JValue.arr [JValue.int (-5), JValue.str [97, 34, 1114109],
        JValue.float 11 (-1), JValue.obj [([107], JValue.boolean true)]])
        none noEncKw) none false noDecKw
      = .ok (JValue.arr [JValue.int (-5), JValue.str [97, 34, 1114109],
        JValue.float 11 (-1), JValue.obj [([107], JValue.boolean true)]]) :=
  ⟨by decide, default_roundtrip _ (by decide)⟩

/-- Counterexample to the unrestricted claim: the two-codepoint string of a
lone high surrogate followed by a lone low surrogate is re-combined by the
decoder into one astral codepoint, so the round trip returns a different
value; the amended hypothesis excludes exactly such strings. -/
theorem roundtrip_surrogate_counterexample :
    loads (dumps (JValue.str [55296, 56320]) none noEncKw) none false noDecKw
      = .ok (JValue.str [65536])
    ∧ JValue.str [65536] ≠ JValue.str [55296, 56320]
    ∧ wfJ (JValue.str [55296, 56320]) = false := by
  refine ⟨rfl, ?_, by decide⟩
  intro h
  injection h with h1
  exact absurd h1 (by decide)

end Nss
